import Mathlib

/-!
Verification development for the go-git repository (a local version-control
engine: content-addressable object store, staging index, recursive tree
builder, line-based diff engine).

The Go sources are shallowly embedded: Go byte slices and Go strings that are
treated as raw bytes become `List Nat` (each element a byte value), Go strings
used only for line comparison become Lean `String`, stateful filesystem code
becomes explicit state passing, and fallible code returns `Option`.
-/

namespace GoGit

/-! ## Byte-level helpers

`strBytes` is the byte view of a Lean `String` (UTF-8), matching how Go lays
out a string in memory. -/

/-- UTF-8 encoding of a single character, as byte values. -/
def utf8Bytes (c : Char) : List Nat :=
  let n := c.toNat
  if n < 128 then [n]
  else if n < 2048 then [192 ||| (n >>> 6), 128 ||| (n &&& 63)]
  else if n < 65536 then
    [224 ||| (n >>> 12), 128 ||| ((n >>> 6) &&& 63), 128 ||| (n &&& 63)]
  else
    [240 ||| (n >>> 18), 128 ||| ((n >>> 12) &&& 63),
     128 ||| ((n >>> 6) &&& 63), 128 ||| (n &&& 63)]

/-- The bytes of a string (UTF-8), i.e. the Go memory representation. -/
def strBytes (s : String) : List Nat :=
  s.data.flatMap utf8Bytes

/-- ASCII decimal digits of a natural number (the bytes `fmt.Sprintf("%d", n)`
produces). Fuel-based recursion so that it reduces in the kernel; the fuel
`n+1` always suffices since `n/10 < n` for `n ≥ 10`. -/
def decDigitsAux : Nat → Nat → List Nat
  | 0, _ => []
  | fuel+1, n => if n < 10 then [48 + n] else decDigitsAux fuel (n / 10) ++ [48 + n % 10]

/-- Bytes of the decimal representation of `n`. -/
def decBytes (n : Nat) : List Nat := decDigitsAux (n + 1) n

/-- Decimal representation of `n` as a string, modelling `fmt.Sprintf("%d", n)`. -/
def decStr (n : Nat) : String := String.mk ((decBytes n).map Char.ofNat)

/-- ASCII octal digits of a natural number (`fmt.Sprintf("%o", n)`), fuel-based. -/
def octDigitsAux : Nat → Nat → List Nat
  | 0, _ => []
  | fuel+1, n => if n < 8 then [48 + n] else octDigitsAux fuel (n / 8) ++ [48 + n % 8]

/-- Bytes of the octal representation of `n`, as `fmt.Sprintf("%o", n)` yields. -/
def octalBytes (n : Nat) : List Nat := octDigitsAux (n + 1) n

/-- Lowercase hex digit character for a nibble value. -/
def hexDigit (n : Nat) : Nat := if n < 10 then 48 + n else 87 + n

/-- Hex string of a byte list, modelling Go `hex.EncodeToString`. -/
def bytesToHex (l : List Nat) : String :=
  String.mk ((l.flatMap (fun b => [hexDigit (b / 16), hexDigit (b % 16)])).map Char.ofNat)

/-- Value of one hex digit character (by byte value), `none` if not a hex digit. -/
def hexDigitVal (c : Nat) : Option Nat :=
  if 48 ≤ c ∧ c ≤ 57 then some (c - 48)
  else if 97 ≤ c ∧ c ≤ 102 then some (c - 87)
  else if 65 ≤ c ∧ c ≤ 70 then some (c - 55)
  else none

/-- Decode pairs of hex digits into bytes, stopping at the first malformed
pair, modelling Go `hex.DecodeString` whose error is discarded by the caller
(`Tree.Content` uses `hashBytes, _ := hex.DecodeString(...)`). -/
def hexPairs : List Char → List Nat
  | c1 :: c2 :: rest =>
    match hexDigitVal c1.toNat, hexDigitVal c2.toNat with
    | some h, some l => (16 * h + l) :: hexPairs rest
    | _, _ => []
  | _ => []

/-- Bytes decoded from a hex string (`hex.DecodeString`, error discarded). -/
def hexToBytes (s : String) : List Nat := hexPairs s.data

/-! ## SHA-1 (Go `crypto/sha1`)

A pure executable SHA-1 over byte lists; all recursion is structural or
fuel-based so that it evaluates inside the kernel. -/

/-- Truncate to 32 bits. -/
def u32 (n : Nat) : Nat := n % 4294967296

/-- Rotate a 32-bit word left by `s`. -/
def rotl32 (s n : Nat) : Nat := u32 ((n <<< s) ||| (n >>> (32 - s)))

/-- Big-endian 4-byte encoding of (the low 32 bits of) `n`. -/
def be32 (n : Nat) : List Nat :=
  [u32 n / 16777216, u32 n / 65536 % 256, u32 n / 256 % 256, u32 n % 256]

/-- Big-endian 8-byte encoding of (the low 64 bits of) `n`. -/
def be64 (n : Nat) : List Nat :=
  be32 (n / 4294967296) ++ be32 n

/-- Big-endian 32-bit read of the first four list elements. -/
def beU32 (l : List Nat) : Nat :=
  l.getD 0 0 * 16777216 + l.getD 1 0 * 65536 + l.getD 2 0 * 256 + l.getD 3 0

/-- Big-endian 16-bit read of the first two list elements. -/
def beU16 (l : List Nat) : Nat :=
  l.getD 0 0 * 256 + l.getD 1 0

/-- SHA-1 message padding: append `0x80`, zero bytes to 56 mod 64, then the
64-bit big-endian bit length. -/
def sha1Pad (msg : List Nat) : List Nat :=
  let l := msg.length
  msg ++ [128] ++ List.replicate ((64 - (l + 9) % 64) % 64) 0 ++ be64 (8 * l)

/-- Split a list into 64-byte chunks (fuel-based; fuel `length + 1` suffices). -/
def chunks64Aux : Nat → List Nat → List (List Nat)
  | 0, _ => []
  | fuel+1, l => if l.isEmpty then [] else l.take 64 :: chunks64Aux fuel (l.drop 64)

/-- The 64-byte chunks of a padded message. -/
def chunks64 (l : List Nat) : List (List Nat) := chunks64Aux (l.length + 1) l

/-- The sixteen big-endian 32-bit words of one 64-byte chunk. -/
def chunkWords (chunk : List Nat) : List Nat :=
  (List.range 16).map (fun k => beU32 (chunk.drop (4 * k)))

/-- Extend sixteen words to eighty via
`w[i] = rotl1 (w[i-3] xor w[i-8] xor w[i-14] xor w[i-16])`. -/
def extendWords : Nat → List Nat → List Nat
  | 0, ws => ws
  | fuel+1, ws =>
    let n := ws.length
    extendWords fuel
      (ws ++ [rotl32 1 (ws.getD (n - 3) 0 ^^^ ws.getD (n - 8) 0 ^^^
        ws.getD (n - 14) 0 ^^^ ws.getD (n - 16) 0)])

/-- One round of the SHA-1 compression function. -/
def sha1Round (ws : List Nat) (st : Nat × Nat × Nat × Nat × Nat) (i : Nat) :
    Nat × Nat × Nat × Nat × Nat :=
  let (a, b, c, d, e) := st
  let f :=
    if i < 20 then (b &&& c) ||| ((b ^^^ 4294967295) &&& d)
    else if i < 40 then b ^^^ c ^^^ d
    else if i < 60 then (b &&& c) ||| (b &&& d) ||| (c &&& d)
    else b ^^^ c ^^^ d
  let k :=
    if i < 20 then 1518500249
    else if i < 40 then 1859775393
    else if i < 60 then 2400959708
    else 3395469782
  let temp := u32 (rotl32 5 a + f + e + k + ws.getD i 0)
  (temp, a, rotl32 30 b, c, d)

/-- Process one 64-byte chunk, updating the five hash words. -/
def sha1Chunk (h : Nat × Nat × Nat × Nat × Nat) (chunk : List Nat) :
    Nat × Nat × Nat × Nat × Nat :=
  let ws := extendWords 64 (chunkWords chunk)
  let (a, b, c, d, e) := (List.range 80).foldl (sha1Round ws) h
  let (h0, h1, h2, h3, h4) := h
  (u32 (h0 + a), u32 (h1 + b), u32 (h2 + c), u32 (h3 + d), u32 (h4 + e))

/-- SHA-1 digest of a byte list, as twenty bytes (Go `sha1.Sum`). -/
def sha1Bytes (msg : List Nat) : List Nat :=
  let (h0, h1, h2, h3, h4) :=
    (chunks64 (sha1Pad msg)).foldl sha1Chunk
      (1732584193, 4023233417, 2562383102, 271733878, 3285377520)
  be32 h0 ++ be32 h1 ++ be32 h2 ++ be32 h3 ++ be32 h4

/-! ## Hashing/framing (`internal/utils/hash.go`) -/

/-- `utils.HashObject`: SHA-1 hex digest of `"<type> <len>\0" + data`. -/
def HashObject (objType : String) (data : List Nat) : String :=
  bytesToHex (sha1Bytes (strBytes objType ++ [32] ++ decBytes data.length ++ [0] ++ data))

/-- `utils.HashBytes`: SHA-1 hex digest of raw bytes. -/
def HashBytes (data : List Nat) : String := bytesToHex (sha1Bytes data)

/-! ## Diff engine (`internal/diff/diff.go`) -/

/-- `diff.ChangeType`. -/
inductive ChangeType where
  | equal
  | insert
  | delete
deriving DecidableEq

/-- `diff.Change`: one element of an edit script. Go's `Type` field is spelled
`ctype` here because `Type` is a Lean keyword; unset Go int fields are zero. -/
structure Change where
  ctype : ChangeType
  OldLine : Nat
  NewLine : Nat
  Text : String
deriving DecidableEq

/-- Split a string at each newline character, modelling Go
`strings.Split(s, "\n")`: `n` separators yield `n+1` pieces, and the empty
string yields `[""]`. -/
def splitLinesAux : List Char → List Char → List String
  | [], acc => [String.mk acc.reverse]
  | c :: cs, acc =>
    if c = '\n' then String.mk acc.reverse :: splitLinesAux cs []
    else splitLinesAux cs (c :: acc)

/-- The line sequence of a text, as `diff.Diff` computes it. -/
def splitLines (s : String) : List String := splitLinesAux s.data []

/-- The LCS dynamic-programming table of `diffLines`: `lcs old new i j` is
`lcs[i][j]` in the Go code (row 0 and column 0 are zero; otherwise
`lcs[i-1][j-1]+1` on a line match, else `max lcs[i-1][j] lcs[i][j-1]`).
Curried into structural recursions so the kernel can evaluate it. -/
def lcsRowFun (oldLine : String) (new : List String) (prev : Nat → Nat) : Nat → Nat
  | 0 => 0
  | j+1 =>
    if oldLine = new.getD j "" then prev j + 1
    else max (prev (j + 1)) (lcsRowFun oldLine new prev j)

/-- The LCS table as a function of row and column index. -/
def lcs (old new : List String) : Nat → Nat → Nat
  | 0 => fun _ => 0
  | i+1 => lcsRowFun (old.getD i "") new (lcs old new i)

/-- Backtracking of `diffLines` restricted to the first column (`i = 0`):
only inserts remain. Produces the script in document order (the Go loop emits
backwards and reverses at the end). -/
def btZeroRow (new : List String) : Nat → List Change
  | 0 => []
  | j+1 => btZeroRow new j ++ [⟨ChangeType.insert, 0, j + 1, new.getD j ""⟩]

/-- Backtracking row step: given `prev = backtrack from row i`, compute the
backtrack from row `i+1` as a function of the column. On a line match an
`Equal` is emitted; otherwise `Insert` when `lcs[i+1][j] ≥ lcs[i][j+1]`
(the insert-over-delete tie-break of the Go code), else `Delete`. -/
def btRow (old new : List String) (i : Nat) (prev : Nat → List Change) : Nat → List Change
  | 0 => prev 0 ++ [⟨ChangeType.delete, i + 1, 0, old.getD i ""⟩]
  | j+1 =>
    if old.getD i "" = new.getD j "" then
      prev j ++ [⟨ChangeType.equal, i + 1, j + 1, old.getD i ""⟩]
    else if lcs old new (i + 1) j ≥ lcs old new i (j + 1) then
      btRow old new i prev j ++ [⟨ChangeType.insert, 0, j + 1, new.getD j ""⟩]
    else
      prev (j + 1) ++ [⟨ChangeType.delete, i + 1, 0, old.getD i ""⟩]

/-- The full backtracking of `diffLines` from position `(i, j)`, in document
order. -/
def bt (old new : List String) : Nat → Nat → List Change
  | 0 => btZeroRow new
  | i+1 => btRow old new i (bt old new i)

/-- `diff.diffLines`: LCS-based line diff, backtracking from `(m, n)`. -/
def diffLines (oldLines newLines : List String) : List Change :=
  bt oldLines newLines oldLines.length newLines.length

/-- `diff.Diff`: split both texts on newlines and diff the line sequences. -/
def Diff (oldText newText : String) : List Change :=
  diffLines (splitLines oldText) (splitLines newText)

/-- State of the `groupIntoHunks` loop: accumulated hunks, the hunk being
built, and the index of the last non-equal change (`none` models Go's `-1`). -/
structure HunkState where
  hunks : List (List Change)
  currentHunk : List Change
  lastChangeIdx : Option Nat

/-- Slice `changes[a:b]` of a change list. -/
def slice (changes : List Change) (a b : Nat) : List Change :=
  (changes.drop a).take (b - a)

/-- One iteration of the `groupIntoHunks` loop at index `i`. -/
def hunkStep (changes : List Change) (context : Nat) (s : HunkState) (i : Nat) : HunkState :=
  let change := changes.getD i ⟨ChangeType.equal, 0, 0, ""⟩
  if change.ctype ≠ ChangeType.equal then
    match s.lastChangeIdx with
    | none =>
      { hunks := s.hunks ++ (if s.currentHunk.isEmpty then [] else [s.currentHunk]),
        currentHunk := slice changes (i - context) i ++ [change],
        lastChangeIdx := some i }
    | some last =>
      if i - last > context * 2 then
        { hunks := s.hunks ++ (if s.currentHunk.isEmpty then [] else [s.currentHunk]),
          currentHunk := slice changes (i - context) i ++ [change],
          lastChangeIdx := some i }
      else
        { hunks := s.hunks,
          currentHunk := s.currentHunk ++ slice changes (last + 1) i ++ [change],
          lastChangeIdx := some i }
  else s

/-- The epilogue of `groupIntoHunks`: append the trailing context to the
current hunk and flush it (a no-op when no non-equal change was seen). -/
def finishHunks (changes : List Change) (context : Nat) (s : HunkState) : List (List Change) :=
  match s.lastChangeIdx with
  | none => s.hunks
  | some last =>
    s.hunks ++ [s.currentHunk ++ slice changes (last + 1) (min (last + context + 1) changes.length)]

/-- `diff.groupIntoHunks`: group an edit script into hunks with up to
`context` unchanged lines around each changed region; regions closer than
`context*2` share a hunk. -/
def groupIntoHunks (changes : List Change) (context : Nat) : List (List Change) :=
  if changes.isEmpty then []
  else
    finishHunks changes context
      ((List.range changes.length).foldl (hunkStep changes context) ⟨[], [], none⟩)

/-- `diff.hunkHeader`: (oldStart, oldCount, newStart, newCount) of a hunk;
starts are the first positive line numbers (defaulting to 1), counts tally
`Equal`/`Delete` for the old side and `Equal`/`Insert` for the new side. -/
def hunkHeader (hunk : List Change) : Nat × Nat × Nat × Nat :=
  let oldStart := match hunk.find? (fun c => 0 < c.OldLine) with
    | some c => c.OldLine
    | none => 1
  let newStart := match hunk.find? (fun c => 0 < c.NewLine) with
    | some c => c.NewLine
    | none => 1
  let oldCount := hunk.countP (fun c => c.ctype = ChangeType.equal) +
    hunk.countP (fun c => c.ctype = ChangeType.delete)
  let newCount := hunk.countP (fun c => c.ctype = ChangeType.equal) +
    hunk.countP (fun c => c.ctype = ChangeType.insert)
  (oldStart, oldCount, newStart, newCount)

/-- The `@@ -a,b +c,d @@` range header string of `diff.Format` (without the
trailing newline, which `Format` appends). -/
def hunkRangeStr (t : Nat × Nat × Nat × Nat) : String :=
  "@@ -" ++ decStr t.1 ++ "," ++ decStr t.2.1 ++ " +" ++ decStr t.2.2.1 ++ "," ++
    decStr t.2.2.2 ++ " @@"

/-- One rendered line of `diff.Format`: equal lines get a space prefix; insert
and delete lines are wrapped in ANSI colour escapes (`\x1b[32m` green /
`\x1b[31m` red, reset `\x1b[0m`) around their `+`/`-` prefix and text. -/
def renderChange (c : Change) : String :=
  match c.ctype with
  | ChangeType.equal => " " ++ c.Text ++ "\n"
  | ChangeType.insert => "\x1b[32m+" ++ c.Text ++ "\x1b[0m\n"
  | ChangeType.delete => "\x1b[31m-" ++ c.Text ++ "\x1b[0m\n"

/-- Concatenation of a list of strings, as a `strings.Builder` loop emits
them. -/
def strConcat : List String → String
  | [] => ""
  | s :: rest => s ++ strConcat rest

/-- `diff.Format`: the `--- a/` and `+++ b/` header followed by each hunk's
range header and rendered lines. -/
def Format (oldName newName : String) (changes : List Change) : String :=
  "--- a/" ++ oldName ++ "\n" ++ "+++ b/" ++ newName ++ "\n" ++
    strConcat ((groupIntoHunks changes 3).map
      (fun h => hunkRangeStr (hunkHeader h) ++ "\n" ++ strConcat (h.map renderChange)))

/-! ## Byte-string ordering

Go compares strings with `<` in byte-lexicographic order; paths and tree
entry names are byte lists here, so the order is spelled out. -/

/-- Byte-lexicographic strict order on byte lists (Go string `<`). -/
def bytesLt : List Nat → List Nat → Bool
  | [], [] => false
  | [], _ :: _ => true
  | _ :: _, [] => false
  | a :: as, b :: bs => if a < b then true else if b < a then false else bytesLt as bs

/-! ## Staging index (`internal/index/index.go`) -/

/-- `index.Entry`: one staged path. Go's fixed-width integer fields become
`Nat` (serialization truncates to their widths); `Hash [20]byte` becomes a
byte list fitted to twenty bytes on write; `Path` is the raw byte string. -/
structure Entry where
  CTimeSec : Nat
  CTimeNano : Nat
  MTimeSec : Nat
  MTimeNano : Nat
  Dev : Nat
  Ino : Nat
  Mode : Nat
  UID : Nat
  GID : Nat
  Size : Nat
  Hash : List Nat
  Flags : Nat
  Path : List Nat
deriving DecidableEq

/-- `index.Index`: the staging area, a mutable list of entries. -/
structure Index where
  Entries : List Entry
deriving DecidableEq

/-- Big-endian 2-byte encoding of (the low 16 bits of) `n`. -/
def be16 (n : Nat) : List Nat := [n % 65536 / 256, n % 256]

/-- Fit a byte list to exactly twenty bytes, as the `[20]byte` array field
does (shorter input is zero-padded, longer input truncated). -/
def fit20 (l : List Nat) : List Nat := (l ++ List.replicate 20 0).take 20

/-- Zero padding after an entry of path length `plen`, bringing
`62 + plen + 1 + padding` to a multiple of eight. -/
def entryPad (plen : Nat) : Nat := (8 - (62 + plen + 1) % 8) % 8

/-- The serialized bytes of one index entry: the 62-byte fixed block, the
null-terminated path, and the zero padding. -/
def writeEntry (e : Entry) : List Nat :=
  be32 e.CTimeSec ++ be32 e.CTimeNano ++ be32 e.MTimeSec ++ be32 e.MTimeNano ++
  be32 e.Dev ++ be32 e.Ino ++ be32 e.Mode ++ be32 e.UID ++ be32 e.GID ++
  be32 e.Size ++ fit20 e.Hash ++ be16 e.Flags ++
  e.Path ++ [0] ++ List.replicate (entryPad e.Path.length) 0

/-- The bytes of the magic signature `"DIRC"`. -/
def indexSignature : List Nat := [68, 73, 82, 67]

/-- The comparison `sort.Slice` uses in `Index.Write`
(`Entries[i].Path < Entries[j].Path`), as a non-strict Boolean order. -/
def entryLe (a b : Entry) : Bool := !(bytesLt b.Path a.Path)

/-- `entryLe` as a relation, for sorting. -/
def EntryLeR : Entry → Entry → Prop := fun a b => entryLe a b = true

instance : DecidableRel EntryLeR :=
  fun a b => inferInstanceAs (Decidable (entryLe a b = true))

/-- `Index.Write` without the filesystem: sort entries by path, write the
12-byte header, the entries, and the SHA-1 checksum trailer over everything
before it. (`sort.Slice` promises any order consistent with the comparison;
a stable insertion sort instantiates it.) -/
def serializeIndex (idx : Index) : List Nat :=
  let sorted := idx.Entries.insertionSort EntryLeR
  let body := indexSignature ++ be32 2 ++ be32 sorted.length ++
    (sorted.map writeEntry).flatten
  body ++ sha1Bytes body

/-- Index of the first occurrence of byte `b`, modelling `bytes.IndexByte`. -/
def indexByte (b : Nat) : List Nat → Option Nat
  | [] => none
  | x :: xs => if x = b then some 0 else (indexByte b xs).map (· + 1)

/-- Parse one index entry from the front of `data`: the 62-byte fixed block,
the null-terminated path, then skip the padding; `none` on truncation or a
missing null terminator, mirroring `parseIndex`'s per-entry body. -/
def parseEntry (data : List Nat) : Option (Entry × List Nat) :=
  if data.length < 62 then none
  else
    match indexByte 0 (data.drop 62) with
    | none => none
    | some pathEnd =>
      some (⟨beU32 data, beU32 (data.drop 4), beU32 (data.drop 8), beU32 (data.drop 12),
        beU32 (data.drop 16), beU32 (data.drop 20), beU32 (data.drop 24),
        beU32 (data.drop 28), beU32 (data.drop 32), beU32 (data.drop 36),
        (data.drop 40).take 20, beU16 (data.drop 60),
        (data.drop 62).take pathEnd⟩,
        (data.drop 62).drop (pathEnd + 1 + entryPad pathEnd))

/-- Parse `n` consecutive entries, returning them with the unread remainder. -/
def parseEntries : Nat → List Nat → Option (List Entry × List Nat)
  | 0, data => some ([], data)
  | n+1, data =>
    match parseEntry data with
    | none => none
    | some (e, rest) =>
      match parseEntries n rest with
      | none => none
      | some (es, rest2) => some (e :: es, rest2)

/-- `index.parseIndex`, additionally returning the unread trailing bytes
(which the Go function ignores — the checksum is never re-verified): check
the 12-byte header (signature `"DIRC"`, version 2), then read exactly the
declared number of entries. -/
def parseIndexCore (data : List Nat) : Option (Index × List Nat) :=
  if data.length < 12 then none
  else if data.take 4 ≠ indexSignature then none
  else if beU32 (data.drop 4) ≠ 2 then none
  else
    match parseEntries (beU32 (data.drop 8)) (data.drop 12) with
    | none => none
    | some (es, rest) => some (⟨es⟩, rest)

/-- `index.parseIndex`: the parsed index, trailing bytes discarded. -/
def parseIndex (data : List Nat) : Option Index :=
  (parseIndexCore data).map (fun p => p.1)

/-- `Index.UpdateEntry` on the entry list: replace the first entry with the
same path, else append. -/
def updateEntry : List Entry → Entry → List Entry
  | [], e => [e]
  | x :: xs, e => if x.Path = e.Path then e :: xs else x :: updateEntry xs e

/-- `Index.UpdateEntry`. -/
def Index.UpdateEntry (idx : Index) (e : Entry) : Index :=
  ⟨updateEntry idx.Entries e⟩

/-- `Index.RemoveEntry` on the entry list: drop the first entry with the
given path. -/
def removeEntry : List Entry → List Nat → List Entry
  | [], _ => []
  | x :: xs, p => if x.Path = p then xs else x :: removeEntry xs p

/-- `Index.RemoveEntry`. -/
def Index.RemoveEntry (idx : Index) (p : List Nat) : Index :=
  ⟨removeEntry idx.Entries p⟩

/-! ## Object store (`internal/object/object.go`) -/

/-- The durable object store: a map from object id (hex hash) to the stored
file bytes. A filesystem path holds at most one file, so the store is a
function. -/
def ObjStore : Type := String → Option (List Nat)

/-- `object.WriteObject` with the filesystem abstracted to an `ObjStore` and
zlib abstracted to the `compress` argument: frame the content, hash the
framed bytes, return the id unchanged if already stored, else store the
compressed framed bytes under the id. -/
def WriteObject (compress : List Nat → List Nat) (store : ObjStore)
    (objType : String) (content : List Nat) : ObjStore × String :=
  let framed := strBytes objType ++ [32] ++ decBytes content.length ++ [0] ++ content
  let hash := HashBytes framed
  match store hash with
  | some _ => (store, hash)
  | none => (fun h => if h = hash then some (compress framed) else store h, hash)

/-! ## Tree objects and the recursive tree builder
(`internal/object/tree.go`, `internal/repository/repository.go`) -/

/-- `object.TreeEntry`: mode and name as byte strings, hash as a hex id. -/
structure TreeEntry where
  Mode : List Nat
  Name : List Nat
  Hash : String
deriving DecidableEq

/-- The comparison `sort.Slice` uses in `Tree.Content`
(`sorted[i].Name < sorted[j].Name`), as a non-strict Boolean order. -/
def treeEntryLe (a b : TreeEntry) : Bool := !(bytesLt b.Name a.Name)

/-- `treeEntryLe` as a relation, for sorting. -/
def TreeLeR : TreeEntry → TreeEntry → Prop := fun a b => treeEntryLe a b = true

instance : DecidableRel TreeLeR :=
  fun a b => inferInstanceAs (Decidable (treeEntryLe a b = true))

/-- `Tree.Content`: entries sorted by name, each serialized as
`"<mode> <name>\0" + 20-byte binary hash`. -/
def treeContent (entries : List TreeEntry) : List Nat :=
  ((entries.insertionSort TreeLeR).map
    (fun e => e.Mode ++ [32] ++ e.Name ++ [0] ++ hexToBytes e.Hash)).flatten

/-- `Tree.Hash`: the object id of a tree with the given entries. -/
def hashTree (entries : List TreeEntry) : String :=
  HashObject "tree" (treeContent entries)

mutual
/-- `repository.dirEntry` for a file leaf or a directory node. The Go map
`map[string]*dirEntry` is embedded as its canonical representation, an
association list sorted by key (a Go map's iteration order is unspecified
and unobservable in the result since `Tree.Content` re-sorts). -/
inductive DirEntry where
  | file (mode : List Nat) (hash : String)
  | dir (entries : DirList)

/-- A directory's children: key (path segment) / node pairs. -/
inductive DirList where
  | nil
  | cons (name : List Nat) (e : DirEntry) (rest : DirList)
end

/-- Insert (or replace) a key in a sorted association list of children. -/
def insertSortedD (k : List Nat) (v : DirEntry) : DirList → DirList
  | DirList.nil => DirList.cons k v DirList.nil
  | DirList.cons k' v' rest =>
    if bytesLt k k' then DirList.cons k v (DirList.cons k' v' rest)
    else if k = k' then DirList.cons k v rest
    else DirList.cons k' v' (insertSortedD k v rest)

/-- Look up a key among a directory's children. -/
def lookupD (k : List Nat) : DirList → Option DirEntry
  | DirList.nil => none
  | DirList.cons k' v rest => if k = k' then some v else lookupD k rest

/-- Split a path at `/` bytes, modelling `repository.splitPath` on clean
relative slash-separated paths (the Go function walks `filepath.Split` /
`filepath.Clean`, which agrees with splitting at `/` whenever no segment is
empty, `"."` or `".."`). -/
def splitPathAux : List Nat → List Nat → List (List Nat)
  | [], acc => [acc.reverse]
  | b :: bs, acc =>
    if b = 47 then acc.reverse :: splitPathAux bs []
    else splitPathAux bs (b :: acc)

/-- The `/`-separated segments of a path. -/
def splitPath (p : List Nat) : List (List Nat) := splitPathAux p []

/-- The per-entry loop body of `BuildTreeRecursive`: walk the segments,
creating directory nodes as needed, and store a file leaf at the last
segment. Descending into an existing *file* node makes the Go code assign
into a nil map and panic, which surfaces as `none`. -/
def insertParts (mode : List Nat) (hsh : String) : List (List Nat) → DirList → Option DirList
  | [], es => some es
  | [p], es => some (insertSortedD p (DirEntry.file mode hsh) es)
  | p :: q :: rest, es =>
    match lookupD p es with
    | some (DirEntry.dir sub) =>
      (insertParts mode hsh (q :: rest) sub).map
        (fun sub2 => insertSortedD p (DirEntry.dir sub2) es)
    | some (DirEntry.file _ _) => none
    | none =>
      (insertParts mode hsh (q :: rest) DirList.nil).map
        (fun sub2 => insertSortedD p (DirEntry.dir sub2) es)

mutual
/-- `repository.buildTreeFromDir`, pure part: the tree entries of a
directory node (files keep their mode and blob id; subdirectories get mode
`"40000"` and the id of their recursively built tree). -/
def dirTreeEntries : DirList → List TreeEntry
  | DirList.nil => []
  | DirList.cons name e rest => childTreeEntry name e :: dirTreeEntries rest

/-- The tree entry contributed by one child node. -/
def childTreeEntry (name : List Nat) : DirEntry → TreeEntry
  | DirEntry.file mode hsh => ⟨mode, name, hsh⟩
  | DirEntry.dir sub => ⟨[52, 48, 48, 48, 48], name, hashTree (dirTreeEntries sub)⟩
end

/-- `Entry.HashString`: hex form of the stored 20-byte content id. -/
def Entry.HashString (e : Entry) : String := bytesToHex e.Hash

/-- `repository.BuildTreeRecursive`, pure part: build the directory trie
from the index entries in order (mode rendered in octal, id in hex), then
hash the root tree bottom-up. Returns `none` where the Go code panics. -/
def BuildTreeRecursive (idx : Index) : Option String :=
  (idx.Entries.foldl
    (fun acc e => acc.bind (insertParts (octalBytes e.Mode) e.HashString (splitPath e.Path)))
    (some DirList.nil)).map
    (fun root => hashTree (dirTreeEntries root))

/-! ## Diff engine: reconstruction and counting lemmas -/

/-- The lines an edit script produces: texts of all non-`Delete` changes
(the new file's lines). -/
def keepNew (cs : List Change) : List String :=
  cs.filterMap (fun c => if c.ctype = ChangeType.delete then none else some c.Text)

/-- The lines an edit script consumes: texts of all non-`Insert` changes
(the old file's lines). -/
def keepOld (cs : List Change) : List String :=
  cs.filterMap (fun c => if c.ctype = ChangeType.insert then none else some c.Text)

/-- Apply an edit script to a line sequence, in order: `Equal` and `Delete`
consume a matching input line (`Equal` also emits it), `Insert` emits its
text; fails if the script does not fit the input. This is the reading of
"applying the `Insert`/`Delete` operations from the diff to `A`". -/
def patchChanges : List Change → List String → Option (List String)
  | [], [] => some []
  | [], _ :: _ => none
  | c :: cs, lines =>
    match c.ctype with
    | ChangeType.insert => (patchChanges cs lines).map (fun r => c.Text :: r)
    | ChangeType.delete =>
      match lines with
      | [] => none
      | l :: rest => if l = c.Text then patchChanges cs rest else none
    | ChangeType.equal =>
      match lines with
      | [] => none
      | l :: rest => if l = c.Text then (patchChanges cs rest).map (fun r => l :: r) else none

theorem keepNew_append (l1 l2 : List Change) : keepNew (l1 ++ l2) = keepNew l1 ++ keepNew l2 := by
  simp [keepNew, List.filterMap_append]

theorem keepOld_append (l1 l2 : List Change) : keepOld (l1 ++ l2) = keepOld l1 ++ keepOld l2 := by
  simp [keepOld, List.filterMap_append]

theorem take_succ_getD {α : Type} (l : List α) (j : Nat) (d : α) (h : j < l.length) :
    l.take (j + 1) = l.take j ++ [l.getD j d] := by
  rw [List.take_succ, List.getD_eq_getElem l d h, List.getElem?_eq_getElem h]
  rfl

theorem btZeroRow_spec (new : List String) :
    ∀ j, j ≤ new.length →
      keepNew (btZeroRow new j) = new.take j ∧ keepOld (btZeroRow new j) = [] := by
  intro j
  induction j with
  | zero => intro _; simp [btZeroRow, keepNew, keepOld]
  | succ j ih =>
    intro h
    obtain ⟨h1, h2⟩ := ih (Nat.le_of_succ_le h)
    constructor
    · rw [btZeroRow, keepNew_append, h1, take_succ_getD new j "" (Nat.lt_of_succ_le h)]
      simp [keepNew]
    · rw [btZeroRow, keepOld_append, h2]
      simp [keepOld]

theorem bt_spec (old new : List String) :
    ∀ i j, i ≤ old.length → j ≤ new.length →
      keepNew (bt old new i j) = new.take j ∧ keepOld (bt old new i j) = old.take i := by
  intro i
  induction i with
  | zero =>
    intro j _ hj
    obtain ⟨h1, h2⟩ := btZeroRow_spec new j hj
    exact ⟨h1, h2⟩
  | succ i ih =>
    intro j
    induction j with
    | zero =>
      intro hi _
      obtain ⟨h1, h2⟩ := ih 0 (Nat.le_of_succ_le hi) (Nat.zero_le _)
      constructor
      · show keepNew (bt old new i 0 ++ [⟨ChangeType.delete, i + 1, 0, old.getD i ""⟩]) = _
        rw [keepNew_append, h1]
        simp [keepNew]
      · show keepOld (bt old new i 0 ++ [⟨ChangeType.delete, i + 1, 0, old.getD i ""⟩]) = _
        rw [keepOld_append, h2, take_succ_getD old i "" (Nat.lt_of_succ_le hi)]
        simp [keepOld]
    | succ j ihj =>
      intro hi hj
      show keepNew (btRow old new i (bt old new i) (j + 1)) = _ ∧
        keepOld (btRow old new i (bt old new i) (j + 1)) = _
      rw [btRow]
      by_cases heq : old.getD i "" = new.getD j ""
      · rw [if_pos heq]
        obtain ⟨h1, h2⟩ := ih j (Nat.le_of_succ_le hi) (Nat.le_of_succ_le hj)
        constructor
        · rw [keepNew_append, h1, take_succ_getD new j "" (Nat.lt_of_succ_le hj), ← heq]
          simp [keepNew]
        · rw [keepOld_append, h2, take_succ_getD old i "" (Nat.lt_of_succ_le hi)]
          simp [keepOld]
      · rw [if_neg heq]
        by_cases hge : lcs old new (i + 1) j ≥ lcs old new i (j + 1)
        · rw [if_pos hge]
          obtain ⟨h1, h2⟩ := ihj hi (Nat.le_of_succ_le hj)
          constructor
          · rw [keepNew_append]
            show keepNew (bt old new (i + 1) j) ++ _ = _
            rw [h1, take_succ_getD new j "" (Nat.lt_of_succ_le hj)]
            simp [keepNew]
          · rw [keepOld_append]
            show keepOld (bt old new (i + 1) j) ++ _ = _
            rw [h2]
            simp [keepOld]
        · rw [if_neg hge]
          obtain ⟨h1, h2⟩ := ih (j + 1) (Nat.le_of_succ_le hi) hj
          constructor
          · rw [keepNew_append, h1]
            simp [keepNew]
          · rw [keepOld_append, h2, take_succ_getD old i "" (Nat.lt_of_succ_le hi)]
            simp [keepOld]

theorem diffLines_keepNew (oldLines newLines : List String) :
    keepNew (diffLines oldLines newLines) = newLines := by
  have h := (bt_spec oldLines newLines oldLines.length newLines.length
    (Nat.le_refl _) (Nat.le_refl _)).1
  rwa [List.take_length] at h

theorem diffLines_keepOld (oldLines newLines : List String) :
    keepOld (diffLines oldLines newLines) = oldLines := by
  have h := (bt_spec oldLines newLines oldLines.length newLines.length
    (Nat.le_refl _) (Nat.le_refl _)).2
  rwa [List.take_length] at h

theorem patch_of_keepOld :
    ∀ cs : List Change, patchChanges cs (keepOld cs) = some (keepNew cs) := by
  intro cs
  induction cs with
  | nil => simp [patchChanges, keepOld, keepNew]
  | cons c cs ih =>
    have ih' : patchChanges cs
        (cs.filterMap (fun c => if c.ctype = ChangeType.insert then none else some c.Text)) =
        some (cs.filterMap (fun c => if c.ctype = ChangeType.delete then none else some c.Text)) := ih
    cases hc : c.ctype <;>
      simp [patchChanges, keepOld, keepNew, List.filterMap_cons, hc, ih']

theorem keepOld_length (cs : List Change) :
    (keepOld cs).length = cs.countP (fun c => c.ctype = ChangeType.equal) +
      cs.countP (fun c => c.ctype = ChangeType.delete) := by
  induction cs with
  | nil => simp [keepOld]
  | cons c cs ih =>
    cases hc : c.ctype <;>
      simp [keepOld, List.filterMap_cons, List.countP_cons, hc] at ih ⊢ <;> omega

theorem keepNew_length (cs : List Change) :
    (keepNew cs).length = cs.countP (fun c => c.ctype = ChangeType.equal) +
      cs.countP (fun c => c.ctype = ChangeType.insert) := by
  induction cs with
  | nil => simp [keepNew]
  | cons c cs ih =>
    cases hc : c.ctype <;>
      simp [keepNew, List.filterMap_cons, List.countP_cons, hc] at ih ⊢ <;> omega

/-- C1: for every pair of texts `A` and `B`, applying the `Insert` and
`Delete` operations of the change list returned by `Diff(A, B)` to `A`'s
line sequence, in the order the operations appear, reconstructs `B`'s line
sequence exactly. -/
theorem C1_diff_patch_reconstructs (A B : String) :
    patchChanges (Diff A B) (splitLines A) = some (splitLines B) := by
  have h := patch_of_keepOld (Diff A B)
  have hOld : keepOld (Diff A B) = splitLines A := diffLines_keepOld _ _
  have hNew : keepNew (Diff A B) = splitLines B := diffLines_keepNew _ _
  rw [hOld, hNew] at h
  exact h

/-- C10: for every pair of line sequences, the diff's change list satisfies
`#Equal + #Delete = |old|` and `#Equal + #Insert = |new|`; consequently
diffing two empty strings yields exactly one `Equal` change whose text is
the empty line, not an empty change list. -/
theorem C10_diff_change_counts (oldLines newLines : List String) :
    ((diffLines oldLines newLines).countP (fun c => c.ctype = ChangeType.equal) +
      (diffLines oldLines newLines).countP (fun c => c.ctype = ChangeType.delete) =
        oldLines.length) ∧
    ((diffLines oldLines newLines).countP (fun c => c.ctype = ChangeType.equal) +
      (diffLines oldLines newLines).countP (fun c => c.ctype = ChangeType.insert) =
        newLines.length) ∧
    Diff "" "" = [⟨ChangeType.equal, 1, 1, ""⟩] := by
  refine ⟨?_, ?_, by decide⟩
  · rw [← keepOld_length, diffLines_keepOld]
  · rw [← keepNew_length, diffLines_keepNew]

/-- C6: `Diff "a\nb\nc" "a\nx\nc"` returns `Equal(a), Delete(b), Insert(x),
Equal(c)` in document order, and the rendered hunk header for this diff is
`@@ -1,3 +1,3 @@`. -/
theorem C6_diff_example :
    Diff "a\nb\nc" "a\nx\nc" =
      [⟨ChangeType.equal, 1, 1, "a"⟩, ⟨ChangeType.delete, 2, 0, "b"⟩,
       ⟨ChangeType.insert, 0, 2, "x"⟩, ⟨ChangeType.equal, 3, 3, "c"⟩] ∧
    (groupIntoHunks (Diff "a\nb\nc" "a\nx\nc") 3).map (fun h => hunkRangeStr (hunkHeader h)) =
      ["@@ -1,3 +1,3 @@"] := by
  decide

/-! ## Diff rendering: line structure -/

/-- One rendered line of `Format` without its terminating newline. -/
def renderLineStr (c : Change) : String :=
  match c.ctype with
  | ChangeType.equal => " " ++ c.Text
  | ChangeType.insert => "\x1b[32m+" ++ c.Text ++ "\x1b[0m"
  | ChangeType.delete => "\x1b[31m-" ++ c.Text ++ "\x1b[0m"

theorem renderChange_eq (c : Change) : renderChange c = renderLineStr c ++ "\n" := by
  cases hc : c.ctype <;> simp [renderChange, renderLineStr, hc, String.append_assoc]

/-- Rendering of a hunk line as the specification sentence literally states
it — exactly a one-character prefix `' '`, `'+'` or `'-'` followed by the
line's text. Spec-side definition, for comparison with `renderChange`. -/
def renderChangeClaim (c : Change) : String :=
  match c.ctype with
  | ChangeType.equal => " " ++ c.Text ++ "\n"
  | ChangeType.insert => "+" ++ c.Text ++ "\n"
  | ChangeType.delete => "-" ++ c.Text ++ "\n"

/-- The rendered diff output as the specification sentence literally
describes it (plain one-character prefixes). Spec-side definition. -/
def FormatClaim (oldName newName : String) (changes : List Change) : String :=
  "--- a/" ++ oldName ++ "\n" ++ "+++ b/" ++ newName ++ "\n" ++
    strConcat ((groupIntoHunks changes 3).map
      (fun h => hunkRangeStr (hunkHeader h) ++ "\n" ++ strConcat (h.map renderChangeClaim)))

theorem strConcat_append (l1 l2 : List String) :
    strConcat (l1 ++ l2) = strConcat l1 ++ strConcat l2 := by
  induction l1 with
  | nil => rfl
  | cons s l1 ih =>
    show s ++ strConcat (l1 ++ l2) = s ++ strConcat l1 ++ strConcat l2
    rw [ih, String.append_assoc]

theorem splitLinesAux_line (a : List Char) :
    ∀ acc rest, '\n' ∉ a →
      splitLinesAux (a ++ '\n' :: rest) acc =
        String.mk (acc.reverse ++ a) :: splitLinesAux rest [] := by
  induction a with
  | nil => intro acc rest _; simp [splitLinesAux]
  | cons c a ih =>
    intro acc rest h
    have hc : ¬ c = '\n' := fun e => h (e ▸ List.mem_cons_self c a)
    show splitLinesAux (c :: (a ++ '\n' :: rest)) acc = _
    rw [splitLinesAux, if_neg hc, ih (c :: acc) rest (fun hm => h (List.mem_cons_of_mem c hm))]
    simp

theorem splitLines_lines :
    ∀ L : List String, (∀ l ∈ L, '\n' ∉ l.data) →
      splitLines (strConcat (L.map (fun l => l ++ "\n"))) = L ++ [""] := by
  intro L
  induction L with
  | nil => intro _; rfl
  | cons l L ih =>
    intro h
    have hl : '\n' ∉ l.data := h l (List.mem_cons_self l L)
    show splitLines ((l ++ "\n") ++ strConcat (L.map (fun l => l ++ "\n"))) = _
    unfold splitLines
    rw [String.data_append, String.data_append,
      show ("\n" : String).data = ['\n'] from rfl, List.append_assoc,
      show ['\n'] ++ (strConcat (L.map (fun l => l ++ "\n"))).data =
        '\n' :: (strConcat (L.map (fun l => l ++ "\n"))).data from rfl,
      splitLinesAux_line l.data [] _ hl]
    rw [List.reverse_nil, List.nil_append,
      show String.mk l.data = l from rfl]
    have := ih (fun x hx => h x (List.mem_cons_of_mem l hx))
    unfold splitLines at this
    rw [this]
    rfl

theorem mem_slice {changes : List Change} {c : Change} {a b : Nat}
    (h : c ∈ slice changes a b) : c ∈ changes :=
  List.mem_of_mem_drop (List.mem_of_mem_take h)

theorem hunkStep_mem (changes : List Change) (ctx : Nat) (s : HunkState) (i : Nat)
    (hi : i < changes.length)
    (hs : (∀ h ∈ s.hunks, ∀ c ∈ h, c ∈ changes) ∧ ∀ c ∈ s.currentHunk, c ∈ changes) :
    (∀ h ∈ (hunkStep changes ctx s i).hunks, ∀ c ∈ h, c ∈ changes) ∧
      ∀ c ∈ (hunkStep changes ctx s i).currentHunk, c ∈ changes := by
  obtain ⟨hh, hc⟩ := hs
  have hget : changes[i]?.getD ⟨ChangeType.equal, 0, 0, ""⟩ ∈ changes := by
    rw [List.getElem?_eq_getElem hi]
    exact List.getElem_mem hi
  have hflush : ∀ h ∈ (if s.currentHunk.isEmpty then ([] : List (List Change))
      else [s.currentHunk]), ∀ c ∈ h, c ∈ changes := by
    split
    · simp
    · intro h hm c hcm
      simp at hm
      exact hc c (hm ▸ hcm)
  have hcurNew : ∀ c ∈ slice changes (i - ctx) i ++
      [changes[i]?.getD ⟨ChangeType.equal, 0, 0, ""⟩], c ∈ changes := by
    intro c hcm
    rcases List.mem_append.mp hcm with h1 | h2
    · exact mem_slice h1
    · simp at h2; exact h2 ▸ hget
  have hhNew : ∀ h ∈ s.hunks ++ (if s.currentHunk.isEmpty then ([] : List (List Change))
      else [s.currentHunk]), ∀ c ∈ h, c ∈ changes := by
    intro h hm
    rcases List.mem_append.mp hm with h1 | h2
    · exact hh h h1
    · exact hflush h h2
  simp only [hunkStep, List.getD_eq_getElem?_getD]
  split
  · split
    · exact ⟨hhNew, hcurNew⟩
    · split
      · exact ⟨hhNew, hcurNew⟩
      · refine ⟨hh, ?_⟩
        intro c hcm
        rcases List.mem_append.mp hcm with h1 | h2
        · rcases List.mem_append.mp h1 with h3 | h4
          · exact hc c h3
          · exact mem_slice h4
        · simp at h2; exact h2 ▸ hget
  · exact ⟨hh, hc⟩

theorem groupIntoHunks_mem (changes : List Change) (ctx : Nat) :
    ∀ h ∈ groupIntoHunks changes ctx, ∀ c ∈ h, c ∈ changes := by
  have inv : ∀ (l : List Nat), (∀ i ∈ l, i < changes.length) → ∀ (s : HunkState),
      ((∀ h ∈ s.hunks, ∀ c ∈ h, c ∈ changes) ∧ ∀ c ∈ s.currentHunk, c ∈ changes) →
      ((∀ h ∈ (l.foldl (hunkStep changes ctx) s).hunks, ∀ c ∈ h, c ∈ changes) ∧
        ∀ c ∈ (l.foldl (hunkStep changes ctx) s).currentHunk, c ∈ changes) := by
    intro l
    induction l with
    | nil => intro _ s hs; exact hs
    | cons i l ih =>
      intro hl s hs
      exact ih (fun j hj => hl j (List.mem_cons_of_mem _ hj)) _
        (hunkStep_mem changes ctx s i (hl i (List.mem_cons_self _ _)) hs)
  intro h hmem c hcm
  rw [groupIntoHunks] at hmem
  split at hmem
  · simp at hmem
  · have hinv := inv (List.range changes.length) (fun i hi => List.mem_range.mp hi)
      ⟨[], [], none⟩ (by constructor <;> simp)
    unfold finishHunks at hmem
    split at hmem
    · exact hinv.1 h hmem c hcm
    · rcases List.mem_append.mp hmem with h1 | h2
      · exact hinv.1 h h1 c hcm
      · simp at h2
        subst h2
        rcases List.mem_append.mp hcm with c1 | c2
        · exact hinv.2 c c1
        · exact mem_slice c2

theorem decDigitsAux_bounds :
    ∀ fuel n, ∀ b ∈ decDigitsAux fuel n, 48 ≤ b ∧ b ≤ 57 := by
  intro fuel
  induction fuel with
  | zero => intro n b hb; simp [decDigitsAux] at hb
  | succ fuel ih =>
    intro n b hb
    unfold decDigitsAux at hb
    split at hb
    · simp at hb
      omega
    · rcases List.mem_append.mp hb with h1 | h2
      · exact ih _ b h1
      · simp at h2
        omega

theorem decStr_no_newline (n : Nat) : '\n' ∉ (decStr n).data := by
  intro hm
  rw [show (decStr n).data = (decBytes n).map Char.ofNat from rfl] at hm
  obtain ⟨b, hb, hc⟩ := List.mem_map.mp hm
  obtain ⟨h1, h2⟩ := decDigitsAux_bounds (n + 1) n b hb
  interval_cases b <;> exact absurd hc (by decide)

theorem hunkRangeStr_no_newline (t : Nat × Nat × Nat × Nat) :
    '\n' ∉ (hunkRangeStr t).data := by
  intro hm
  simp only [hunkRangeStr, String.data_append, List.mem_append] at hm
  simp +decide [decStr_no_newline t.1, decStr_no_newline t.2.1,
    decStr_no_newline t.2.2.1, decStr_no_newline t.2.2.2] at hm

theorem renderLineStr_no_newline (c : Change) (h : '\n' ∉ c.Text.data) :
    '\n' ∉ (renderLineStr c).data := by
  intro hm
  cases hc : c.ctype <;>
    · simp only [renderLineStr, hc, String.data_append, List.mem_append] at hm
      simp +decide [h] at hm

theorem strConcat_renderLines (h : List Change) :
    strConcat ((h.map renderLineStr).map (fun l => l ++ "\n")) =
      strConcat (h.map renderChange) := by
  induction h with
  | nil => rfl
  | cons c h ih => simp only [List.map_cons, strConcat, ih, renderChange_eq c]

theorem strConcat_hunks (hs : List (List Change)) :
    strConcat ((hs.flatMap (fun h => hunkRangeStr (hunkHeader h) ::
        h.map renderLineStr)).map (fun l => l ++ "\n")) =
      strConcat (hs.map (fun h => hunkRangeStr (hunkHeader h) ++ "\n" ++
        strConcat (h.map renderChange))) := by
  induction hs with
  | nil => rfl
  | cons h hs ih =>
    rw [List.flatMap_cons, List.map_append, strConcat_append, ih, List.map_cons]
    show _ ++ _ = (hunkRangeStr (hunkHeader h) ++ "\n" ++ strConcat (h.map renderChange)) ++ _
    congr 1
    show (hunkRangeStr (hunkHeader h) ++ "\n") ++
      strConcat ((h.map renderLineStr).map (fun l => l ++ "\n")) = _
    rw [strConcat_renderLines]

theorem Format_eq_lines (oldName newName : String) (changes : List Change) :
    Format oldName newName changes =
      strConcat (((("--- a/" ++ oldName) :: ("+++ b/" ++ newName) ::
        (groupIntoHunks changes 3).flatMap
          (fun h => hunkRangeStr (hunkHeader h) :: h.map renderLineStr))).map
        (fun l => l ++ "\n")) := by
  unfold Format
  rw [List.map_cons, List.map_cons]
  show _ = (("--- a/" ++ oldName) ++ "\n") ++ ((("+++ b/" ++ newName) ++ "\n") ++ _)
  rw [strConcat_hunks]
  apply String.ext
  simp [String.data_append]

/-- C7 (counterexample): at names `f`, `g` and the change list
`Diff "a" "b"`, the rendered output differs from the plain one-character
prefix rendering the claim states — insert and delete lines carry ANSI
colour escape sequences. -/
theorem C7_counterexample :
    Format "f" "g" (Diff "a" "b") ≠ FormatClaim "f" "g" (Diff "a" "b") := by
  decide

/-- C7 (amended): for names and change texts containing no newline, the
rendered diff output consists of exactly these newline-terminated lines: a
`--- a/<old-name>` line, a `+++ b/<new-name>` line, then per hunk its
`@@ -a,b +c,d @@` range header followed by each hunk line rendered with
prefix `' '` for equal lines, while insert and delete lines carry their
`'+'`/`'-'` prefix and text wrapped in ANSI colour escapes
(`ESC[32m...ESC[0m` green for insert, `ESC[31m...ESC[0m` red for delete). -/
theorem C7_format_line_structure (oldName newName : String) (changes : List Change)
    (h1 : '\n' ∉ oldName.data) (h2 : '\n' ∉ newName.data)
    (h3 : ∀ c ∈ changes, '\n' ∉ c.Text.data) :
    splitLines (Format oldName newName changes) =
      (("--- a/" ++ oldName) :: ("+++ b/" ++ newName) ::
        (groupIntoHunks changes 3).flatMap
          (fun h => hunkRangeStr (hunkHeader h) :: h.map renderLineStr)) ++ [""] := by
  rw [Format_eq_lines]
  apply splitLines_lines
  intro l hl
  simp only [List.mem_cons] at hl
  rcases hl with hl | hl | hl
  · subst hl
    rw [String.data_append]
    intro hm
    rcases List.mem_append.mp hm with h | h
    · exact absurd h (by decide)
    · exact h1 h
  · subst hl
    rw [String.data_append]
    intro hm
    rcases List.mem_append.mp hm with h | h
    · exact absurd h (by decide)
    · exact h2 h
  · obtain ⟨h, hh, hlh⟩ := List.mem_flatMap.mp hl
    simp only [List.mem_cons] at hlh
    rcases hlh with hlh | hlh
    · exact hlh ▸ hunkRangeStr_no_newline _
    · obtain ⟨c, hch, hcl⟩ := List.mem_map.mp hlh
      exact hcl ▸ renderLineStr_no_newline c (h3 c (groupIntoHunks_mem changes 3 h hh c hch))

/-- C7 (witness): the amended line-structure theorem applied at names
`f`, `g` and the change list `Diff "a" "b"`. -/
theorem C7_format_line_structure_witness :
    splitLines (Format "f" "g" (Diff "a" "b")) =
      (("--- a/" ++ "f") :: ("+++ b/" ++ "g") ::
        (groupIntoHunks (Diff "a" "b") 3).flatMap
          (fun h => hunkRangeStr (hunkHeader h) :: h.map renderLineStr)) ++ [""] :=
  C7_format_line_structure "f" "g" (Diff "a" "b") (by decide) (by decide) (by decide)

/-! ## Index operations: path uniqueness (C9) -/

/-- Distinctness of entry paths, the index invariant. -/
def PathsDistinct (l : List Entry) : Prop :=
  l.Pairwise (fun a b => a.Path ≠ b.Path)

theorem updateEntry_mem : ∀ (l : List Entry) (e y : Entry),
    y ∈ updateEntry l e → y = e ∨ y ∈ l := by
  intro l
  induction l with
  | nil => intro e y hy; simp [updateEntry] at hy; exact Or.inl hy
  | cons x xs ih =>
    intro e y hy
    rw [updateEntry] at hy
    split at hy
    · rcases List.mem_cons.mp hy with h | h
      · exact Or.inl h
      · exact Or.inr (List.mem_cons_of_mem x h)
    · rcases List.mem_cons.mp hy with h | h
      · exact Or.inr (h ▸ List.mem_cons_self x xs)
      · rcases ih e y h with h1 | h2
        · exact Or.inl h1
        · exact Or.inr (List.mem_cons_of_mem x h2)

theorem updateEntry_pairwise (l : List Entry) (e : Entry) (h : PathsDistinct l) :
    PathsDistinct (updateEntry l e) := by
  induction l with
  | nil => simp [updateEntry, PathsDistinct]
  | cons x xs ih =>
    rw [PathsDistinct, List.pairwise_cons] at h
    obtain ⟨hx, hxs⟩ := h
    rw [updateEntry]
    split
    · rename_i heq
      rw [PathsDistinct, List.pairwise_cons]
      exact ⟨fun y hy => heq ▸ hx y hy, hxs⟩
    · rename_i hne
      rw [PathsDistinct, List.pairwise_cons]
      refine ⟨fun y hy => ?_, ih hxs⟩
      rcases updateEntry_mem xs e y hy with h1 | h2
      · subst h1
        exact hne
      · exact hx y h2

theorem removeEntry_sublist : ∀ (l : List Entry) (p : List Nat),
    List.Sublist (removeEntry l p) l := by
  intro l
  induction l with
  | nil => intro p; simp [removeEntry]
  | cons x xs ih =>
    intro p
    rw [removeEntry]
    split
    · exact List.sublist_cons_self x xs
    · exact List.Sublist.cons₂ x (ih p)

theorem updateEntry_filter (l : List Entry) (e : Entry) (h : PathsDistinct l) :
    (updateEntry l e).filter (fun x => x.Path = e.Path) = [e] := by
  induction l with
  | nil => simp [updateEntry, List.filter]
  | cons x xs ih =>
    rw [PathsDistinct, List.pairwise_cons] at h
    obtain ⟨hx, hxs⟩ := h
    rw [updateEntry]
    split
    · rename_i heq
      have hnil : xs.filter (fun x => x.Path = e.Path) = [] := by
        apply List.filter_eq_nil_iff.mpr
        intro y hy
        simp only [decide_eq_true_eq]
        exact fun hc => hx y hy (heq.trans hc.symm)
      simp [List.filter_cons, hnil]
    · rename_i hne
      simp only [List.filter_cons, decide_eq_true_eq, if_neg hne]
      exact ih hxs

/-- C9: path uniqueness is an invariant of the index — starting from
pairwise-distinct paths, `UpdateEntry` (upsert-by-path) and `RemoveEntry`
(with any argument) preserve distinctness, and after `UpdateEntry e` the
index holds exactly one entry for `e`'s path, equal to `e`. -/
theorem C9_index_path_uniqueness (idx : Index) (e : Entry) (p : List Nat)
    (h : PathsDistinct idx.Entries) :
    PathsDistinct (idx.UpdateEntry e).Entries ∧
    PathsDistinct (idx.RemoveEntry p).Entries ∧
    (idx.UpdateEntry e).Entries.filter (fun x => x.Path = e.Path) = [e] :=
  ⟨updateEntry_pairwise idx.Entries e h,
    List.Pairwise.sublist (removeEntry_sublist idx.Entries p) h,
    updateEntry_filter idx.Entries e h⟩

/-- C9 (witness): the invariant theorem applied to a concrete two-entry
index. -/
theorem C9_index_path_uniqueness_witness :
    PathsDistinct ((Index.mk [⟨0,0,0,0,0,0,0,0,0,0,[],0,[97]⟩,
        ⟨0,0,0,0,0,0,0,0,0,0,[],0,[98]⟩]).UpdateEntry
          ⟨1,1,1,1,1,1,1,1,1,1,[],1,[98]⟩).Entries ∧
    PathsDistinct ((Index.mk [⟨0,0,0,0,0,0,0,0,0,0,[],0,[97]⟩,
        ⟨0,0,0,0,0,0,0,0,0,0,[],0,[98]⟩]).RemoveEntry [97]).Entries ∧
    ((Index.mk [⟨0,0,0,0,0,0,0,0,0,0,[],0,[97]⟩,
        ⟨0,0,0,0,0,0,0,0,0,0,[],0,[98]⟩]).UpdateEntry
          ⟨1,1,1,1,1,1,1,1,1,1,[],1,[98]⟩).Entries.filter
      (fun x => x.Path = (⟨1,1,1,1,1,1,1,1,1,1,[],1,[98]⟩ : Entry).Path) =
      [⟨1,1,1,1,1,1,1,1,1,1,[],1,[98]⟩] :=
  C9_index_path_uniqueness
    (Index.mk [⟨0,0,0,0,0,0,0,0,0,0,[],0,[97]⟩, ⟨0,0,0,0,0,0,0,0,0,0,[],0,[98]⟩])
    ⟨1,1,1,1,1,1,1,1,1,1,[],1,[98]⟩ [97]
    (by rw [PathsDistinct]; decide)

/-! ## Object store: idempotent writes (C4) -/

/-- C4: writing the same object twice through the object store leaves the
store with exactly one copy under the computed id and both calls return the
same id — the second write sees the id on durable storage and returns it
without touching the store. Universally quantified over the compression
collaborator and the starting store. -/
theorem C4_writeObject_idempotent (compress : List Nat → List Nat) (store : ObjStore)
    (objType : String) (content : List Nat) :
    (WriteObject compress (WriteObject compress store objType content).1 objType content).2 =
      (WriteObject compress store objType content).2 ∧
    (WriteObject compress (WriteObject compress store objType content).1 objType content).1 =
      (WriteObject compress store objType content).1 ∧
    ((WriteObject compress store objType content).1
      (WriteObject compress store objType content).2).isSome = true := by
  unfold WriteObject
  generalize strBytes objType ++ [32] ++ decBytes content.length ++ [0] ++ content = framed
  cases hs : store (HashBytes framed) with
  | some b => simp [hs]
  | none => simp [hs]

/-! ## Hashing: the identity invariant (C5) -/

set_option maxRecDepth 100000 in
/-- C5: an object's id is the fixed-width SHA-1 hex digest computed over the
framed bytes `"<type> <decimal-byte-length>\0" + content` — so identical
(type, content) pairs always hash to the identical id — and a blob
containing `"test\n"` hashes to the documented reference value. -/
theorem C5_hash_object_framing :
    (∀ (objType : String) (data : List Nat),
      HashObject objType data =
        bytesToHex (sha1Bytes
          (strBytes objType ++ [32] ++ decBytes data.length ++ [0] ++ data))) ∧
    HashObject "blob" (strBytes "test\n") = "9daeafb9864cf43055ae93beb0afd6c7d144bfa4" :=
  ⟨fun _ _ => rfl, by decide⟩

/-! ## Byte-lexicographic order: basic facts -/

theorem bytesLt_irrefl : ∀ a : List Nat, bytesLt a a = false := by
  intro a
  induction a with
  | nil => rfl
  | cons x xs ih => simp [bytesLt, ih]

theorem bytesLt_conn : ∀ a b : List Nat,
    bytesLt a b = false → bytesLt b a = false → a = b := by
  intro a
  induction a with
  | nil =>
    intro b h1 _
    cases b with
    | nil => rfl
    | cons y bs => simp [bytesLt] at h1
  | cons x xs ih =>
    intro b h1 h2
    cases b with
    | nil => simp [bytesLt] at h2
    | cons y bs =>
      rw [bytesLt] at h1 h2
      by_cases hxy : x < y
      · simp [hxy] at h1
      · by_cases hyx : y < x
        · simp [hxy, hyx] at h2
        · have hx : x = y := by omega
          subst hx
          simp [hxy] at h1 h2
          rw [ih bs h1 h2]

theorem bytesLt_asymm : ∀ a b : List Nat,
    bytesLt a b = true → bytesLt b a = false := by
  intro a
  induction a with
  | nil =>
    intro b _
    cases b with
    | nil => rfl
    | cons y bs => simp [bytesLt]
  | cons x xs ih =>
    intro b h
    cases b with
    | nil => simp [bytesLt] at h
    | cons y bs =>
      rw [bytesLt] at h ⊢
      by_cases hxy : x < y
      · simp [hxy, show ¬ y < x by omega]
      · by_cases hyx : y < x
        · simp [hxy, hyx] at h
        · have hx : x = y := by omega
          subst hx
          simp [hxy] at h ⊢
          exact ih bs h

theorem bytesLt_cons_iff (x y : Nat) (xs ys : List Nat) :
    bytesLt (x :: xs) (y :: ys) = true ↔ x < y ∨ (x = y ∧ bytesLt xs ys = true) := by
  rw [bytesLt]
  split_ifs with p q
  · exact ⟨fun _ => Or.inl p, fun _ => rfl⟩
  · constructor
    · intro h; exact absurd h (by decide)
    · intro h; rcases h with h | ⟨he, _⟩ <;> omega
  · have hxy : x = y := by omega
    subst hxy
    simp

theorem bytesLt_trans : ∀ a b c : List Nat,
    bytesLt a b = true → bytesLt b c = true → bytesLt a c = true := by
  intro a
  induction a with
  | nil =>
    intro b c h1 h2
    cases b with
    | nil => exact h2
    | cons y bs =>
      cases c with
      | nil => simp [bytesLt] at h2
      | cons z cs => simp [bytesLt]
  | cons x xs ih =>
    intro b c h1 h2
    cases b with
    | nil => simp [bytesLt] at h1
    | cons y bs =>
      cases c with
      | nil => simp [bytesLt] at h2
      | cons z cs =>
        rw [bytesLt_cons_iff] at h1 h2 ⊢
        rcases h1 with h1 | ⟨he1, h1⟩
        · rcases h2 with h2 | ⟨he2, h2⟩
          · exact Or.inl (by omega)
          · exact Or.inl (by omega)
        · rcases h2 with h2 | ⟨he2, h2⟩
          · exact Or.inl (by omega)
          · exact Or.inr ⟨by omega, ih bs cs h1 h2⟩

theorem entryLe_total : ∀ a b : Entry, (entryLe a b || entryLe b a) = true := by
  intro a b
  rw [entryLe, entryLe]
  by_cases h : bytesLt b.Path a.Path = true
  · have := bytesLt_asymm _ _ h
    simp [this]
  · simp [eq_false_of_ne_true h]

theorem entryLe_trans : ∀ a b c : Entry,
    entryLe a b = true → entryLe b c = true → entryLe a c = true := by
  intro a b c h1 h2
  simp only [entryLe, Bool.not_eq_true'] at h1 h2 ⊢
  by_cases hbc : bytesLt b.Path c.Path = true
  · by_cases hca : bytesLt c.Path a.Path = true
    · have := bytesLt_trans _ _ _ hbc hca
      rw [h1] at this
      exact absurd this (by decide)
    · exact eq_false_of_ne_true hca
  · have hcb : c.Path = b.Path := bytesLt_conn _ _ h2 (eq_false_of_ne_true hbc)
    rw [hcb]
    exact h1

/-! ## Index serialization: parse inverts write (C3) -/

/-- An index entry as parsing normalizes it: the integer fields reduced to
their serialized widths, the hash fitted to twenty bytes, the path kept. -/
def canonEntry (e : Entry) : Entry :=
  ⟨u32 e.CTimeSec, u32 e.CTimeNano, u32 e.MTimeSec, u32 e.MTimeNano, u32 e.Dev,
   u32 e.Ino, u32 e.Mode, u32 e.UID, u32 e.GID, u32 e.Size, fit20 e.Hash,
   e.Flags % 65536, e.Path⟩

theorem beU32_be32 (n : Nat) (r : List Nat) : beU32 (be32 n ++ r) = u32 n := by
  have h : u32 n < 4294967296 := Nat.mod_lt _ (by omega)
  simp [beU32, be32]
  omega

theorem beU16_be16 (n : Nat) (r : List Nat) : beU16 (be16 n ++ r) = n % 65536 := by
  have h : n % 65536 < 65536 := Nat.mod_lt _ (by omega)
  simp [beU16, be16]
  omega

theorem fit20_length (l : List Nat) : (fit20 l).length = 20 := by
  simp [fit20]

theorem fit20_fit20 (l : List Nat) : fit20 (fit20 l) = fit20 l := by
  have h := fit20_length l
  rw [fit20, List.take_append_of_le_length (by omega), List.take_of_length_le (by omega)]

theorem be32_u32 (n : Nat) : be32 (u32 n) = be32 n := by
  simp only [be32, u32, List.cons.injEq, and_true]
  refine ⟨?_, ?_, ?_, ?_⟩ <;> simp [Nat.mod_mod_of_dvd]

theorem be16_mod (n : Nat) : be16 (n % 65536) = be16 n := by
  simp only [be16, List.cons.injEq, and_true]
  constructor
  · rw [Nat.mod_mod_of_dvd n (by norm_num)]
  · omega

theorem writeEntry_canon (e : Entry) : writeEntry (canonEntry e) = writeEntry e := by
  simp [writeEntry, canonEntry, be32_u32, be16_mod, fit20_fit20]

theorem indexByte_terminator : ∀ (p : List Nat) (t : List Nat), ¬ 0 ∈ p →
    indexByte 0 (p ++ 0 :: t) = some p.length := by
  intro p
  induction p with
  | nil => intro t _; simp [indexByte]
  | cons x xs ih =>
    intro t h
    have hx : ¬ x = 0 := fun e => h (e ▸ List.mem_cons_self x xs)
    show (if x = 0 then some 0 else (indexByte 0 (xs ++ 0 :: t)).map (· + 1)) =
      some (x :: xs).length
    rw [if_neg hx, ih t (fun hm => h (List.mem_cons_of_mem x hm))]
    rfl

theorem beU16_be16' (n : Nat) : beU16 (be16 n) = n % 65536 := by
  have h : n % 65536 < 65536 := Nat.mod_lt _ (by omega)
  simp [beU16, be16]
  omega

theorem parseEntry_writeEntry (e : Entry) (rest : List Nat) (hp : ¬ 0 ∈ e.Path) :
    parseEntry (writeEntry e ++ rest) = some (canonEntry e, rest) := by
  obtain ⟨c1,c2,c3,c4,c5,c6,c7,c8,c9,c10,H0,F0,P⟩ := e
  unfold writeEntry canonEntry
  simp only []
  generalize hH : fit20 H0 = H
  have hHlen : H.length = 20 := by rw [← hH]; exact fit20_length H0
  have hlen : ¬ ((be32 c1 ++ be32 c2 ++ be32 c3 ++ be32 c4 ++ be32 c5 ++ be32 c6 ++
      be32 c7 ++ be32 c8 ++ be32 c9 ++ be32 c10 ++ H ++ be16 F0 ++
      P ++ [0] ++ List.replicate (entryPad P.length) 0) ++ rest).length < 62 := by
    simp [be32, be16, hHlen]
    omega
  unfold parseEntry
  rw [if_neg hlen]
  have hdrop62 : (((be32 c1 ++ be32 c2 ++ be32 c3 ++ be32 c4 ++ be32 c5 ++ be32 c6 ++
      be32 c7 ++ be32 c8 ++ be32 c9 ++ be32 c10 ++ H ++ be16 F0 ++
      P ++ [0] ++ List.replicate (entryPad P.length) 0) ++ rest)).drop 62 =
      P ++ 0 :: (List.replicate (entryPad P.length) 0 ++ rest) := by
    simp [be32, be16, List.drop_append_eq_append_drop, hHlen, List.append_assoc]
  rw [hdrop62, indexByte_terminator P _ hp]
  simp only [Option.some.injEq, Prod.mk.injEq, Entry.mk.injEq, List.append_assoc]
  refine ⟨⟨?_, ?_, ?_, ?_, ?_, ?_, ?_, ?_, ?_, ?_, ?_, ?_, ?_⟩, ?_⟩
  · exact beU32_be32 c1 _
  · simp [be32, beU32, u32]
    omega
  · simp [be32, beU32, u32]
    omega
  · simp [be32, beU32, u32]
    omega
  · simp [be32, beU32, u32]
    omega
  · simp [be32, beU32, u32]
    omega
  · simp [be32, beU32, u32]
    omega
  · simp [be32, beU32, u32]
    omega
  · simp [be32, beU32, u32]
    omega
  · simp [be32, beU32, u32]
    omega
  · simp [be32, List.take_append_eq_append_take, hHlen, List.take_of_length_le]
  · simp [be32, be16, beU16, hHlen, List.drop_append_eq_append_drop, List.drop_eq_nil_of_le]
    omega
  · exact List.take_left' rfl
  · rw [Nat.add_assoc, List.drop_append, Nat.add_comm 1 (entryPad P.length)]
    show (List.replicate (entryPad P.length) 0 ++ rest).drop (entryPad P.length) = rest
    exact List.drop_left' (List.length_replicate _ _)

theorem parseEntries_write : ∀ (es : List Entry) (rest : List Nat),
    (∀ e ∈ es, ¬ 0 ∈ e.Path) →
    parseEntries es.length ((es.map writeEntry).flatten ++ rest) =
      some (es.map canonEntry, rest) := by
  intro es
  induction es with
  | nil => intro rest _; simp [parseEntries]
  | cons e es ih =>
    intro rest hp
    simp only [List.length_cons, List.map_cons, List.flatten_cons, List.append_assoc,
      parseEntries]
    rw [parseEntry_writeEntry e ((es.map writeEntry).flatten ++ rest)
        (hp e (List.mem_cons_self e es))]
    show (match parseEntries es.length ((es.map writeEntry).flatten ++ rest) with
      | none => none
      | some (es2, rest2) => some (canonEntry e :: es2, rest2)) =
      some (canonEntry e :: es.map canonEntry, rest)
    rw [ih rest (fun x hx => hp x (List.mem_cons_of_mem e hx))]

/-- `EntryLeR` is total. -/
theorem entryLeR_total (a b : Entry) : EntryLeR a b ∨ EntryLeR b a := by
  have := entryLe_total a b
  rw [Bool.or_eq_true] at this
  exact this

/-- `EntryLeR` is transitive. -/
theorem entryLeR_trans (a b c : Entry) : EntryLeR a b → EntryLeR b c → EntryLeR a c :=
  entryLe_trans a b c

/-- The sorted entry list of `serializeIndex` is `Pairwise` ordered. -/
theorem insertionSort_entries_sorted (l : List Entry) :
    (l.insertionSort EntryLeR).Pairwise EntryLeR :=
  @List.sorted_insertionSort Entry EntryLeR _ ⟨entryLeR_total⟩ ⟨entryLeR_trans⟩ l

theorem canonEntry_path (e : Entry) : (canonEntry e).Path = e.Path := rfl

theorem parseIndexCore_serialize (idx : Index)
    (hp : ∀ e ∈ idx.Entries, ¬ 0 ∈ e.Path)
    (hc : idx.Entries.length < 4294967296) :
    parseIndexCore (serializeIndex idx) =
      some (⟨(idx.Entries.insertionSort EntryLeR).map canonEntry⟩,
        sha1Bytes (indexSignature ++ (be32 2 ++
          (be32 (idx.Entries.insertionSort EntryLeR).length ++
          ((idx.Entries.insertionSort EntryLeR).map writeEntry).flatten)))) := by
  simp only [serializeIndex, parseIndexCore, List.append_assoc]
  set S := idx.Entries.insertionSort EntryLeR with hS
  set F := (S.map writeEntry).flatten with hF
  set L := S.length with hL
  set C := sha1Bytes (indexSignature ++ (be32 2 ++ (be32 L ++ F))) with hC
  have hSlen : S.length = idx.Entries.length := List.length_insertionSort EntryLeR idx.Entries
  have hLlt : L < 4294967296 := by rw [hL, hSlen]; exact hc
  have hpS : ∀ e ∈ S, ¬ 0 ∈ e.Path := by
    intro e he
    rw [hS] at he
    exact hp e ((List.mem_insertionSort EntryLeR).mp he)
  have hlen12 : ¬ ((indexSignature ++ (be32 2 ++ (be32 L ++ (F ++ C)))).length < 12) := by
    simp [indexSignature, be32]
  rw [if_neg hlen12]
  have htake : (indexSignature ++ (be32 2 ++ (be32 L ++ (F ++ C)))).take 4 =
      indexSignature := List.take_left' rfl
  rw [htake, if_neg (by simp)]
  have hver : beU32 ((indexSignature ++ (be32 2 ++ (be32 L ++ (F ++ C)))).drop 4) = 2 := by
    rw [List.drop_left' (show (indexSignature : List Nat).length = 4 from rfl), beU32_be32]
    rfl
  rw [hver, if_neg (by simp)]
  have h8 : (indexSignature ++ (be32 2 ++ (be32 L ++ (F ++ C)))).drop 8 =
      be32 L ++ (F ++ C) := by
    rw [show indexSignature ++ (be32 2 ++ (be32 L ++ (F ++ C))) =
      (indexSignature ++ be32 2) ++ (be32 L ++ (F ++ C)) from
        (List.append_assoc _ _ _).symm]
    exact List.drop_left' (by simp [indexSignature, be32])
  have h12 : (indexSignature ++ (be32 2 ++ (be32 L ++ (F ++ C)))).drop 12 = F ++ C := by
    rw [show indexSignature ++ (be32 2 ++ (be32 L ++ (F ++ C))) =
      ((indexSignature ++ be32 2) ++ be32 L) ++ (F ++ C) from by
        rw [List.append_assoc, List.append_assoc]]
    exact List.drop_left' (by simp [indexSignature, be32])
  have hcount : beU32 ((indexSignature ++ (be32 2 ++ (be32 L ++ (F ++ C)))).drop 8) = L := by
    rw [h8, beU32_be32]
    exact Nat.mod_eq_of_lt hLlt
  rw [hcount, h12, hL, hF, parseEntries_write S C hpS]

/-- C3 (amended): for every index whose entry paths contain no NUL byte,
with pairwise-distinct paths (the index invariant; Go's `sort.Slice` leaves
tie order unspecified) and fewer than `2^32` entries (the entry-count field
width), parsing its serialized bytes and re-serializing the parsed index
reproduces the byte sequence exactly — header, entry padding and trailing
checksum included. -/
theorem C3_serialize_parse_roundtrip (idx : Index)
    (hp : ∀ e ∈ idx.Entries, ¬ 0 ∈ e.Path)
    (hd : PathsDistinct idx.Entries)
    (hc : idx.Entries.length < 4294967296) :
    (parseIndex (serializeIndex idx)).map serializeIndex = some (serializeIndex idx) := by
  have _hd := hd
  rw [parseIndex, parseIndexCore_serialize idx hp hc]
  simp only [Option.map_some']
  congr 1
  have hsorted : ((idx.Entries.insertionSort EntryLeR).map canonEntry).Pairwise EntryLeR :=
    List.Pairwise.map canonEntry (fun _ _ h => h) (insertionSort_entries_sorted idx.Entries)
  have hid : ((idx.Entries.insertionSort EntryLeR).map canonEntry).insertionSort EntryLeR =
      (idx.Entries.insertionSort EntryLeR).map canonEntry :=
    List.Sorted.insertionSort_eq hsorted
  have hw : ((idx.Entries.insertionSort EntryLeR).map canonEntry).map writeEntry =
      (idx.Entries.insertionSort EntryLeR).map writeEntry := by
    rw [List.map_map]
    exact List.map_congr_left (fun e _ => writeEntry_canon e)
  show serializeIndex ⟨(idx.Entries.insertionSort EntryLeR).map canonEntry⟩ =
    serializeIndex idx
  simp only [serializeIndex, hid, hw, List.length_map, List.append_assoc]

set_option maxRecDepth 100000 in
/-- C3 (counterexample): for an index whose single entry has the path bytes
`"a\x00b"` (a NUL byte inside the path), parsing the serialized bytes stops
the path at the embedded NUL, so re-serializing does not reproduce the
original byte sequence: the claim fails without a NUL-free-path proviso. -/
theorem C3_counterexample :
    (parseIndex (serializeIndex ⟨[⟨0, 0, 0, 0, 0, 0, 33188, 0, 0, 0,
        List.replicate 20 17, 3, [97, 0, 98]⟩]⟩)).map serializeIndex ≠
      some (serializeIndex ⟨[⟨0, 0, 0, 0, 0, 0, 33188, 0, 0, 0,
        List.replicate 20 17, 3, [97, 0, 98]⟩]⟩) := by
  decide

/-- C3 (witness): the round-trip theorem applied to a concrete one-entry
index. -/
theorem C3_serialize_parse_roundtrip_witness :
    (parseIndex (serializeIndex ⟨[⟨1, 2, 3, 4, 5, 6, 33188, 7, 8, 9,
        List.replicate 20 17, 1, [97]⟩]⟩)).map serializeIndex =
      some (serializeIndex ⟨[⟨1, 2, 3, 4, 5, 6, 33188, 7, 8, 9,
        List.replicate 20 17, 1, [97]⟩]⟩) :=
  C3_serialize_parse_roundtrip
    ⟨[⟨1, 2, 3, 4, 5, 6, 33188, 7, 8, 9, List.replicate 20 17, 1, [97]⟩]⟩
    (by decide) (by rw [PathsDistinct]; decide) (by decide)

/-! ## Index parsing ignores trailing bytes (C8) -/

theorem indexByte_some_lt : ∀ {l : List Nat} {b i : Nat},
    indexByte b l = some i → i < l.length := by
  intro l
  induction l with
  | nil => intro b i h; simp [indexByte] at h
  | cons x xs ih =>
    intro b i h
    rw [indexByte] at h
    split at h
    · injection h with h
      rw [← h]
      simp
    · cases hx : indexByte b xs with
      | none => rw [hx] at h; simp at h
      | some j =>
        rw [hx] at h
        simp at h
        have := ih hx
        simp [List.length_cons]
        omega

theorem indexByte_append_left : ∀ {l1 : List Nat} {b i : Nat} (l2 : List Nat),
    indexByte b l1 = some i → indexByte b (l1 ++ l2) = some i := by
  intro l1
  induction l1 with
  | nil => intro b i l2 h; simp [indexByte] at h
  | cons x xs ih =>
    intro b i l2 h
    rw [indexByte] at h
    rw [List.cons_append, indexByte]
    by_cases hx : x = b
    · rw [if_pos hx] at h ⊢; exact h
    · rw [if_neg hx] at h ⊢
      cases hj : indexByte b xs with
      | none => rw [hj] at h; simp at h
      | some j =>
        rw [hj] at h
        rw [ih l2 hj]
        exact h

theorem indexByte_of_append : ∀ {l1 : List Nat} {l2 : List Nat} {b i : Nat},
    indexByte b (l1 ++ l2) = some i → i < l1.length → indexByte b l1 = some i := by
  intro l1
  induction l1 with
  | nil => intro l2 b i _ hi; simp at hi
  | cons x xs ih =>
    intro l2 b i h hi
    rw [List.cons_append, indexByte] at h
    rw [indexByte]
    by_cases hx : x = b
    · rw [if_pos hx] at h ⊢; exact h
    · rw [if_neg hx] at h ⊢
      cases hj : indexByte b (xs ++ l2) with
      | none => rw [hj] at h; simp at h
      | some j =>
        rw [hj] at h
        simp at h
        rw [ih hj (by simp at hi; omega)]
        simp [h]

/-- Inversion of a successful `parseEntry`. -/
theorem parseEntry_inv {d : List Nat} {e : Entry} {left : List Nat}
    (h : parseEntry d = some (e, left)) :
    ∃ pEnd, ¬ d.length < 62 ∧ indexByte 0 (d.drop 62) = some pEnd ∧
      e = ⟨beU32 d, beU32 (d.drop 4), beU32 (d.drop 8), beU32 (d.drop 12),
        beU32 (d.drop 16), beU32 (d.drop 20), beU32 (d.drop 24), beU32 (d.drop 28),
        beU32 (d.drop 32), beU32 (d.drop 36), (d.drop 40).take 20, beU16 (d.drop 60),
        (d.drop 62).take pEnd⟩ ∧
      left = (d.drop 62).drop (pEnd + 1 + entryPad pEnd) := by
  unfold parseEntry at h
  split at h
  · exact absurd h (by simp)
  · rename_i hlen
    split at h
    · exact absurd h (by simp)
    · rename_i pEnd hfind
      simp only [Option.some.injEq, Prod.mk.injEq] at h
      exact ⟨pEnd, hlen, hfind, h.1.symm, h.2.symm⟩

theorem beU32_append_left {l : List Nat} (X : List Nat) (h : 4 ≤ l.length) :
    beU32 (l ++ X) = beU32 l := by
  unfold beU32
  rw [List.getD_append l X 0 0 (by omega), List.getD_append l X 0 1 (by omega),
    List.getD_append l X 0 2 (by omega), List.getD_append l X 0 3 (by omega)]

theorem beU16_append_left {l : List Nat} (X : List Nat) (h : 2 ≤ l.length) :
    beU16 (l ++ X) = beU16 l := by
  unfold beU16
  rw [List.getD_append l X 0 0 (by omega), List.getD_append l X 0 1 (by omega)]

/-- A 32-bit read at offset `k` well inside `c` ignores what follows `c`. -/
theorem read32_stable {c : List Nat} (A B : List Nat) (k : Nat) (h4 : k + 4 ≤ c.length) :
    beU32 ((c ++ A).drop k) = beU32 ((c ++ B).drop k) := by
  rw [List.drop_append_of_le_length (by omega : k ≤ c.length),
    List.drop_append_of_le_length (by omega : k ≤ c.length),
    beU32_append_left A (by rw [List.length_drop]; omega),
    beU32_append_left B (by rw [List.length_drop]; omega)]

theorem read16_stable {c : List Nat} (A B : List Nat) (k : Nat) (h2 : k + 2 ≤ c.length) :
    beU16 ((c ++ A).drop k) = beU16 ((c ++ B).drop k) := by
  rw [List.drop_append_of_le_length (by omega : k ≤ c.length),
    List.drop_append_of_le_length (by omega : k ≤ c.length),
    beU16_append_left A (by rw [List.length_drop]; omega),
    beU16_append_left B (by rw [List.length_drop]; omega)]

theorem take_drop_stable {c : List Nat} (A B : List Nat) (k n : Nat)
    (h : k + n ≤ c.length) :
    ((c ++ A).drop k).take n = ((c ++ B).drop k).take n := by
  rw [List.drop_append_of_le_length (by omega : k ≤ c.length),
    List.drop_append_of_le_length (by omega : k ≤ c.length),
    List.take_append_of_le_length (by rw [List.length_drop]; omega),
    List.take_append_of_le_length (by rw [List.length_drop]; omega)]

/-- A successful entry parse that leaves exactly the suffix `m` (nonempty)
parses the same entry whatever replaces `m`. -/
theorem parseEntry_stable {c m : List Nat} {e : Entry}
    (h : parseEntry (c ++ m) = some (e, m)) (hm : m ≠ []) (X : List Nat) :
    parseEntry (c ++ X) = some (e, X) := by
  obtain ⟨pEnd, hlen, hfind, hee, hleft⟩ := parseEntry_inv h
  rw [List.drop_drop] at hleft
  have hmlen : m.length = (c ++ m).length - (62 + (pEnd + 1 + entryPad pEnd)) := by
    conv_lhs => rw [hleft]
    rw [List.length_drop]
  have hm1 : 1 ≤ m.length := by
    cases m with
    | nil => exact absurd rfl hm
    | cons a as => simp
  have hclen : c.length = 62 + (pEnd + 1 + entryPad pEnd) := by
    rw [List.length_append] at hmlen
    omega
  have hC62 : 62 + pEnd + 1 ≤ c.length := by omega
  unfold parseEntry
  rw [if_neg (by rw [List.length_append]; omega)]
  have hdX : (c ++ X).drop 62 = c.drop 62 ++ X :=
    List.drop_append_of_le_length (by omega)
  have hdm : (c ++ m).drop 62 = c.drop 62 ++ m :=
    List.drop_append_of_le_length (by omega)
  rw [hdm] at hfind
  have hplt : pEnd < (c.drop 62).length := by rw [List.length_drop]; omega
  rw [hdX, indexByte_append_left X (indexByte_of_append hfind hplt)]
  simp only [Option.some.injEq, Prod.mk.injEq]
  constructor
  · rw [hee]
    rw [show beU32 (c ++ X) = beU32 (c ++ m) from by
        rw [beU32_append_left X (by omega), beU32_append_left m (by omega)],
      read32_stable X m 4 (by omega), read32_stable X m 8 (by omega),
      read32_stable X m 12 (by omega), read32_stable X m 16 (by omega),
      read32_stable X m 20 (by omega), read32_stable X m 24 (by omega),
      read32_stable X m 28 (by omega), read32_stable X m 32 (by omega),
      read32_stable X m 36 (by omega), take_drop_stable X m 40 20 (by omega),
      read16_stable X m 60 (by omega),
      List.take_append_of_le_length (by rw [List.length_drop]; omega), hdm,
      List.take_append_of_le_length (by rw [List.length_drop]; omega)]
  · exact List.drop_left' (by rw [List.length_drop]; omega)

/-- A successful entry parse that consumed its whole input (possibly
overrunning into the padding) parses the same entry from any extension,
leaving some suffix of the appended bytes. -/
theorem parseEntry_extend {d : List Nat} {e : Entry}
    (h : parseEntry d = some (e, [])) (X : List Nat) :
    ∃ j, parseEntry (d ++ X) = some (e, X.drop j) := by
  obtain ⟨pEnd, hlen, hfind, hee, hleft⟩ := parseEntry_inv h
  have hplt : pEnd < (d.drop 62).length := indexByte_some_lt hfind
  have hd62 : 62 ≤ d.length := by omega
  have hpd : pEnd + 62 < d.length := by rw [List.length_drop] at hplt; omega
  refine ⟨pEnd + 1 + entryPad pEnd - (d.drop 62).length, ?_⟩
  unfold parseEntry
  rw [if_neg (by rw [List.length_append]; omega)]
  rw [List.drop_append_of_le_length hd62,
    indexByte_append_left X hfind]
  simp only [Option.some.injEq, Prod.mk.injEq]
  constructor
  · rw [hee]
    rw [show beU32 (d ++ X) = beU32 d from beU32_append_left X (by omega),
      List.drop_append_of_le_length (show 4 ≤ d.length by omega),
      beU32_append_left X (by rw [List.length_drop]; omega),
      List.drop_append_of_le_length (show 8 ≤ d.length by omega),
      beU32_append_left X (by rw [List.length_drop]; omega),
      List.drop_append_of_le_length (show 12 ≤ d.length by omega),
      beU32_append_left X (by rw [List.length_drop]; omega),
      List.drop_append_of_le_length (show 16 ≤ d.length by omega),
      beU32_append_left X (by rw [List.length_drop]; omega),
      List.drop_append_of_le_length (show 20 ≤ d.length by omega),
      beU32_append_left X (by rw [List.length_drop]; omega),
      List.drop_append_of_le_length (show 24 ≤ d.length by omega),
      beU32_append_left X (by rw [List.length_drop]; omega),
      List.drop_append_of_le_length (show 28 ≤ d.length by omega),
      beU32_append_left X (by rw [List.length_drop]; omega),
      List.drop_append_of_le_length (show 32 ≤ d.length by omega),
      beU32_append_left X (by rw [List.length_drop]; omega),
      List.drop_append_of_le_length (show 36 ≤ d.length by omega),
      beU32_append_left X (by rw [List.length_drop]; omega),
      List.drop_append_of_le_length (show 40 ≤ d.length by omega),
      List.take_append_of_le_length (by rw [List.length_drop]; omega),
      List.drop_append_of_le_length (show 60 ≤ d.length by omega),
      beU16_append_left X (by rw [List.length_drop]; omega),
      List.take_append_of_le_length (by rw [List.length_drop]; omega)]
  · rw [List.drop_append_eq_append_drop, ← hleft]
    rfl

/-- A successful entry parse leaves a suffix of its input. -/
theorem parseEntry_leftover_drop {d : List Nat} {e : Entry} {left : List Nat}
    (h : parseEntry d = some (e, left)) : ∃ k, left = d.drop k := by
  obtain ⟨pEnd, _, _, _, hleft⟩ := parseEntry_inv h
  rw [List.drop_drop] at hleft
  exact ⟨_, hleft⟩

/-- A successful multi-entry parse leaves a suffix of its input. -/
theorem parseEntries_leftover_drop : ∀ (n : Nat) {d : List Nat} {es : List Entry}
    {left : List Nat}, parseEntries n d = some (es, left) → ∃ k, left = d.drop k := by
  intro n
  induction n with
  | zero =>
    intro d es left h
    simp [parseEntries] at h
    exact ⟨0, h.2.symm⟩
  | succ n ih =>
    intro d es left h
    rw [parseEntries] at h
    split at h
    · simp at h
    · rename_i e mid hpe
      split at h
      · simp at h
      · rename_i es2 left2 hre
        simp at h
        obtain ⟨k1, hk1⟩ := parseEntry_leftover_drop hpe
        obtain ⟨k2, hk2⟩ := ih hre
        refine ⟨k1 + k2, ?_⟩
        rw [← h.2, hk2, hk1, List.drop_drop]

/-- Entries parsed from `pre ++ rest`, consuming exactly `pre`, parse
identically when `rest` is replaced by anything. -/
theorem parseEntries_stable : ∀ (n : Nat) (pre rest : List Nat) (es : List Entry),
    parseEntries n (pre ++ rest) = some (es, rest) → ∀ rest', ∃ r2,
      parseEntries n (pre ++ rest') = some (es, r2) := by
  intro n
  induction n with
  | zero =>
    intro pre rest es h rest'
    simp [parseEntries] at h
    obtain ⟨hes, hpre⟩ := h
    subst hpre
    exact ⟨rest', by simp [parseEntries, hes]⟩
  | succ n ih =>
    intro pre rest es h rest'
    rw [parseEntries] at h
    split at h
    · simp at h
    · rename_i e mid hpe
      split at h
      · simp at h
      · rename_i es2 left2 hre
        simp at h
        obtain ⟨hes, hleft2⟩ := h
        subst hleft2
        by_cases hmid : mid = []
        · subst hmid
          cases n with
          | zero =>
            simp [parseEntries] at hre
            obtain ⟨hes2, hrest⟩ := hre
            subst hrest
            rw [List.append_nil] at hpe
            obtain ⟨j, hj⟩ := parseEntry_extend hpe rest'
            refine ⟨rest'.drop j, ?_⟩
            rw [parseEntries, hj]
            simp [parseEntries, ← hes, hes2]
          | succ n' =>
            simp [parseEntries, parseEntry] at hre
        · obtain ⟨k, hk⟩ := parseEntry_leftover_drop hpe
          obtain ⟨k2, hk2⟩ := parseEntries_leftover_drop n hre
          have hmge : 1 ≤ mid.length := by
            cases mid with
            | nil => exact absurd rfl hmid
            | cons a as => simp
          have hmlen : mid.length = (pre ++ left2).length - k := by
            conv_lhs => rw [hk]
            rw [List.length_drop]
          have hrlen : left2.length ≤ mid.length := by
            have := congrArg List.length hk2
            rw [List.length_drop] at this
            omega
          have hkle : k ≤ pre.length := by
            rw [List.length_append] at hmlen
            omega
          have hmid2 : mid = pre.drop k ++ left2 := by
            rw [hk, List.drop_append_of_le_length hkle]
          have hsplit : pre ++ left2 = pre.take k ++ mid := by
            rw [hmid2, ← List.append_assoc, List.take_append_drop]
          have hstable := parseEntry_stable (c := pre.take k) (m := mid)
            (by rw [← hsplit]; exact hpe) hmid (pre.drop k ++ rest')
          obtain ⟨r2, hr2⟩ := ih (pre.drop k) left2 es2 (by rw [← hmid2]; exact hre) rest'
          refine ⟨r2, ?_⟩
          rw [parseEntries,
            show pre ++ rest' = pre.take k ++ (pre.drop k ++ rest') from by
              rw [← List.append_assoc, List.take_append_drop],
            hstable]
          show (match parseEntries n (List.drop k pre ++ rest') with
            | none => none
            | some (es3, rest2) => some (e :: es3, rest2)) = some (es, r2)
          rw [hr2]
          show some (e :: es2, r2) = some (es, r2)
          rw [← hes]

/-- C8: the trailer checksum is written on serialization but never
re-verified on load. If an index byte sequence parses successfully,
consuming exactly the prefix `pre` (the 12-byte header plus the entry
records) and leaving `rest` unread (the 20-byte checksum trailer and
anything after it), then replacing `rest` by arbitrary bytes does not
change the parse result and cannot make parsing fail: the parsed index
depends only on the header and the entry records. -/
theorem C8_checksum_not_verified {pre rest : List Nat} {idx : Index}
    (h : parseIndexCore (pre ++ rest) = some (idx, rest)) (rest' : List Nat) :
    parseIndex (pre ++ rest') = some idx := by
  rw [parseIndexCore] at h
  split_ifs at h with hlen hsig hver
  split at h
  · simp at h
  · rename_i es left hpe
    simp at h
    obtain ⟨hidx, hleft⟩ := h
    subst hleft
    obtain ⟨k, hk⟩ := parseEntries_leftover_drop _ hpe
    have hp12 : 12 ≤ pre.length := by
      have := congrArg List.length hk
      simp only [List.length_drop, List.length_append] at this
      rw [List.length_append] at hlen
      omega
    have hdr12 : (pre ++ left).drop 12 = pre.drop 12 ++ left :=
      List.drop_append_of_le_length hp12
    rw [hdr12] at hpe
    obtain ⟨r2, hr2⟩ := parseEntries_stable _ (pre.drop 12) left es hpe rest'
    rw [parseIndex, parseIndexCore]
    rw [if_neg (by rw [List.length_append]; omega)]
    have htake4 : (pre ++ rest').take 4 = (pre ++ left).take 4 := by
      rw [List.take_append_of_le_length (by omega),
        List.take_append_of_le_length (by omega)]
    have hread4 : beU32 ((pre ++ rest').drop 4) = beU32 ((pre ++ left).drop 4) :=
      read32_stable rest' left 4 (by omega)
    have hread8 : beU32 ((pre ++ rest').drop 8) = beU32 ((pre ++ left).drop 8) :=
      read32_stable rest' left 8 (by omega)
    rw [if_neg (by rw [htake4]; exact hsig)]
    rw [if_neg (by rw [hread4]; exact hver)]
    rw [hread8,
      show (pre ++ rest').drop 12 = pre.drop 12 ++ rest' from
        List.drop_append_of_le_length hp12,
      hr2]
    simp [hidx]

/-- Concrete instance of C8: a well-formed header with entry count 0
followed by trailer bytes `[5, 5]` parses, and replacing the trailer by
`[9, 9, 9]` still parses to the same index. -/
theorem C8_checksum_not_verified_witness :
    parseIndex ([68, 73, 82, 67, 0, 0, 0, 2, 0, 0, 0, 0] ++ [9, 9, 9]) =
      some ⟨[]⟩ :=
  @C8_checksum_not_verified [68, 73, 82, 67, 0, 0, 0, 2, 0, 0, 0, 0] [5, 5]
    ⟨[]⟩ (by rfl) [9, 9, 9]

/-! ## Tree building: commutation of independent inserts -/

/-- Inserting a key and looking it up yields the inserted value. -/
theorem lookupD_insert_self (k : List Nat) (v : DirEntry) :
    ∀ s, lookupD k (insertSortedD k v s) = some v
  | DirList.nil => by simp [insertSortedD, lookupD]
  | DirList.cons k' v' rest => by
    rw [insertSortedD]
    split_ifs with hb heq
    · simp [lookupD]
    · simp [lookupD]
    · rw [lookupD, if_neg heq]
      exact lookupD_insert_self k v rest

/-- Inserting one key does not change lookups of a different key. -/
theorem lookupD_insert_ne (k q : List Nat) (v : DirEntry) (hne : q ≠ k) :
    ∀ s, lookupD q (insertSortedD k v s) = lookupD q s
  | DirList.nil => by simp [insertSortedD, lookupD, hne]
  | DirList.cons k' v' rest => by
    rw [insertSortedD]
    split_ifs with hb heq
    · rw [lookupD, if_neg hne, lookupD]
    · rw [lookupD, if_neg hne, lookupD, if_neg (heq ▸ hne)]
    · rw [lookupD, lookupD]
      by_cases hq : q = k'
      · rw [if_pos hq, if_pos hq]
      · rw [if_neg hq, if_neg hq]
        exact lookupD_insert_ne k q v hne rest

/-- A second insert at the same key overwrites the first. -/
theorem insertSortedD_collapse (k : List Nat) (v w : DirEntry) :
    ∀ s, insertSortedD k v (insertSortedD k w s) = insertSortedD k v s
  | DirList.nil => by simp [insertSortedD, bytesLt_irrefl]
  | DirList.cons k' v' rest => by
    rw [insertSortedD]
    split_ifs with hb heq
    · simp [insertSortedD, bytesLt_irrefl, hb]
    · simp [insertSortedD, bytesLt_irrefl, hb, heq]
    · rw [insertSortedD, if_neg hb, if_neg heq,
        insertSortedD, if_neg hb, if_neg heq]
      exact congrArg (DirList.cons k' v') (insertSortedD_collapse k v w rest)

/-- Inserts at two keys commute when the first key sorts strictly below the
second. -/
theorem insertSortedD_comm_lt (k1 k2 : List Nat) (v1 v2 : DirEntry)
    (hlt : bytesLt k1 k2 = true) :
    ∀ s, insertSortedD k1 v1 (insertSortedD k2 v2 s) =
      insertSortedD k2 v2 (insertSortedD k1 v1 s)
  | DirList.nil => by
    have h21 : bytesLt k2 k1 = false := bytesLt_asymm _ _ hlt
    have hne : k1 ≠ k2 := fun h => by
      rw [h, bytesLt_irrefl] at hlt
      exact Bool.noConfusion hlt
    simp [insertSortedD, hlt, h21, hne, Ne.symm hne]
  | DirList.cons k' v' rest => by
    have h21 : bytesLt k2 k1 = false := bytesLt_asymm _ _ hlt
    have hne : k1 ≠ k2 := fun h => by
      rw [h, bytesLt_irrefl] at hlt
      exact Bool.noConfusion hlt
    by_cases hb : bytesLt k2 k' = true
    · have hb1 : bytesLt k1 k' = true := bytesLt_trans _ _ _ hlt hb
      simp [insertSortedD, hb, hb1, hlt, h21, hne, Ne.symm hne]
    · by_cases heq : k2 = k'
      · subst heq
        simp [insertSortedD, hlt, h21, hne, Ne.symm hne, bytesLt_irrefl, hb]
      · by_cases hc1 : bytesLt k1 k' = true
        · simp [insertSortedD, hb, heq, hc1, h21, Ne.symm hne, hlt]
        · by_cases hc2 : k1 = k'
          · subst hc2
            simp [insertSortedD, bytesLt_irrefl, h21, Ne.symm hne, hb, heq, hlt, hc1]
          · simp only [insertSortedD, if_neg hb, if_neg heq, if_neg hc1, if_neg hc2]
            exact congrArg (DirList.cons k' v')
              (insertSortedD_comm_lt k1 k2 v1 v2 hlt rest)

/-- Inserts at distinct keys commute. -/
theorem insertSortedD_comm (k1 k2 : List Nat) (v1 v2 : DirEntry) (hne : k1 ≠ k2)
    (s : DirList) :
    insertSortedD k1 v1 (insertSortedD k2 v2 s) =
      insertSortedD k2 v2 (insertSortedD k1 v1 s) := by
  cases h12 : bytesLt k1 k2 with
  | true => exact insertSortedD_comm_lt k1 k2 v1 v2 h12 s
  | false =>
    cases h21 : bytesLt k2 k1 with
    | true => exact (insertSortedD_comm_lt k2 k1 v2 v1 h21 s).symm
    | false => exact absurd (bytesLt_conn _ _ h12 h21) hne

end GoGit

namespace GoGit

theorem insertParts_single (m : List Nat) (h : String) (p : List Nat)
    (es : DirList) :
    insertParts m h [p] es = some (insertSortedD p (DirEntry.file m h) es) := rfl

theorem insertParts_go_file {p : List Nat} {es : DirList} {mo : List Nat}
    {hs : String} (m : List Nat) (h : String) (q : List Nat)
    (r : List (List Nat)) (hl : lookupD p es = some (DirEntry.file mo hs)) :
    insertParts m h (p :: q :: r) es = none := by
  unfold insertParts
  rw [hl]

theorem insertParts_go_child {p : List Nat} {es x : DirList} (m : List Nat)
    (h : String) (q : List Nat) (r : List (List Nat))
    (hx : lookupD p es = some (DirEntry.dir x) ∨
      (lookupD p es = none ∧ x = DirList.nil)) :
    insertParts m h (p :: q :: r) es =
      (insertParts m h (q :: r) x).map
        (fun u => insertSortedD p (DirEntry.dir u) es) := by
  rcases hx with hl | ⟨hl, hx⟩
  · conv_lhs => rw [insertParts]
    rw [hl]
  · subst hx
    conv_lhs => rw [insertParts]
    rw [hl]

theorem insertParts_comm (m1 m2 : List Nat) (hs1 hs2 : String) :
    ∀ ps1 ps2 : List (List Nat), ¬ ps1 <+: ps2 → ¬ ps2 <+: ps1 →
    ∀ s, (insertParts m1 hs1 ps1 s).bind (insertParts m2 hs2 ps2) =
      (insertParts m2 hs2 ps2 s).bind (insertParts m1 hs1 ps1) := by
  intro ps1
  induction ps1 with
  | nil =>
    intro ps2 hp1 _ s
    exact absurd List.nil_prefix hp1
  | cons p t1 ih =>
    intro ps2 hp1 hp2 s
    cases ps2 with
    | nil => exact absurd List.nil_prefix hp2
    | cons q t2 =>
      cases t1 with
      | nil =>
        cases t2 with
        | nil =>
          have hpq : p ≠ q := fun h => hp1 ⟨[], by simp [h]⟩
          simp only [insertParts_single, Option.some_bind]
          exact congrArg some (insertSortedD_comm q p _ _ (Ne.symm hpq) s)
        | cons q2 r2 =>
          have hpq : p ≠ q := fun h => hp1 ⟨q2 :: r2, by simp [h]⟩
          simp only [insertParts_single, Option.some_bind]
          cases hl : lookupD q s with
          | some e =>
            cases e with
            | file mo hs =>
              rw [insertParts_go_file m2 hs2 q2 r2
                  ((lookupD_insert_ne p q _ (Ne.symm hpq) s).trans hl),
                insertParts_go_file m2 hs2 q2 r2 hl, Option.none_bind]
            | dir sub =>
              rw [insertParts_go_child m2 hs2 q2 r2
                  (Or.inl ((lookupD_insert_ne p q _ (Ne.symm hpq) s).trans hl)),
                insertParts_go_child m2 hs2 q2 r2 (Or.inl hl)]
              cases hrec : insertParts m2 hs2 (q2 :: r2) sub with
              | none => rfl
              | some u =>
                simp only [Option.map_some', Option.some_bind, insertParts_single]
                exact congrArg some (insertSortedD_comm q p _ _ (Ne.symm hpq) s)
          | none =>
            rw [insertParts_go_child m2 hs2 q2 r2
                (Or.inr ⟨(lookupD_insert_ne p q _ (Ne.symm hpq) s).trans hl, rfl⟩),
              insertParts_go_child m2 hs2 q2 r2 (Or.inr ⟨hl, rfl⟩)]
            cases hrec : insertParts m2 hs2 (q2 :: r2) DirList.nil with
            | none => rfl
            | some u =>
              simp only [Option.map_some', Option.some_bind, insertParts_single]
              exact congrArg some (insertSortedD_comm q p _ _ (Ne.symm hpq) s)
      | cons p2 r1 =>
        cases t2 with
        | nil =>
          have hqp : q ≠ p := fun h => hp2 ⟨p2 :: r1, by simp [h]⟩
          simp only [insertParts_single, Option.some_bind]
          cases hl : lookupD p s with
          | some e =>
            cases e with
            | file mo hs =>
              rw [insertParts_go_file m1 hs1 p2 r1 hl, Option.none_bind,
                insertParts_go_file m1 hs1 p2 r1
                  ((lookupD_insert_ne q p _ (Ne.symm hqp) s).trans hl)]
            | dir sub =>
              rw [insertParts_go_child m1 hs1 p2 r1 (Or.inl hl),
                insertParts_go_child m1 hs1 p2 r1
                  (Or.inl ((lookupD_insert_ne q p _ (Ne.symm hqp) s).trans hl))]
              cases hrec : insertParts m1 hs1 (p2 :: r1) sub with
              | none => rfl
              | some u =>
                simp only [Option.map_some', Option.some_bind, insertParts_single]
                exact congrArg some (insertSortedD_comm q p _ _ hqp s)
          | none =>
            rw [insertParts_go_child m1 hs1 p2 r1 (Or.inr ⟨hl, rfl⟩),
              insertParts_go_child m1 hs1 p2 r1
                (Or.inr ⟨(lookupD_insert_ne q p _ (Ne.symm hqp) s).trans hl, rfl⟩)]
            cases hrec : insertParts m1 hs1 (p2 :: r1) DirList.nil with
            | none => rfl
            | some u =>
              simp only [Option.map_some', Option.some_bind, insertParts_single]
              exact congrArg some (insertSortedD_comm q p _ _ hqp s)
        | cons q2 r2 =>
          by_cases hpq : p = q
          · subst hpq
            have ht1 : ¬ (p2 :: r1) <+: (q2 :: r2) := fun hh =>
              hp1 (List.cons_prefix_cons.mpr ⟨rfl, hh⟩)
            have ht2 : ¬ (q2 :: r2) <+: (p2 :: r1) := fun hh =>
              hp2 (List.cons_prefix_cons.mpr ⟨rfl, hh⟩)
            have IH := ih (q2 :: r2) ht1 ht2
            suffices hgen : ∀ x : DirList,
                (lookupD p s = some (DirEntry.dir x) ∨
                  (lookupD p s = none ∧ x = DirList.nil)) →
                (insertParts m1 hs1 (p :: p2 :: r1) s).bind
                    (insertParts m2 hs2 (p :: q2 :: r2)) =
                  (insertParts m2 hs2 (p :: q2 :: r2) s).bind
                    (insertParts m1 hs1 (p :: p2 :: r1)) by
              cases hl : lookupD p s with
              | none => exact hgen DirList.nil (Or.inr ⟨hl, rfl⟩)
              | some e =>
                cases e with
                | dir sub => exact hgen sub (Or.inl hl)
                | file mo hs =>
                  rw [insertParts_go_file m1 hs1 p2 r1 hl, Option.none_bind,
                    insertParts_go_file m2 hs2 q2 r2 hl, Option.none_bind]
            intro x hx
            rw [insertParts_go_child m1 hs1 p2 r1 hx,
              insertParts_go_child m2 hs2 q2 r2 hx]
            cases h1 : insertParts m1 hs1 (p2 :: r1) x with
            | none =>
              cases h2 : insertParts m2 hs2 (q2 :: r2) x with
              | none => rfl
              | some u2 =>
                have hnone : insertParts m1 hs1 (p2 :: r1) u2 = none := by
                  have hIH := IH x
                  rw [h1, h2, Option.none_bind, Option.some_bind] at hIH
                  exact hIH.symm
                rw [Option.map_none', Option.none_bind, Option.map_some',
                  Option.some_bind,
                  insertParts_go_child m1 hs1 p2 r1
                    (Or.inl (lookupD_insert_self p (DirEntry.dir u2) s)),
                  hnone, Option.map_none']
            | some u1 =>
              rw [Option.map_some', Option.some_bind,
                insertParts_go_child m2 hs2 q2 r2
                  (Or.inl (lookupD_insert_self p (DirEntry.dir u1) s))]
              cases h2 : insertParts m2 hs2 (q2 :: r2) x with
              | none =>
                have hnone : insertParts m2 hs2 (q2 :: r2) u1 = none := by
                  have hIH := IH x
                  rw [h1, h2, Option.some_bind, Option.none_bind] at hIH
                  exact hIH
                rw [hnone, Option.map_none', Option.map_none', Option.none_bind]
              | some u2 =>
                have hcross : insertParts m2 hs2 (q2 :: r2) u1 =
                    insertParts m1 hs1 (p2 :: r1) u2 := by
                  have hIH := IH x
                  rw [h1, h2, Option.some_bind, Option.some_bind] at hIH
                  exact hIH
                rw [Option.map_some', Option.some_bind,
                  insertParts_go_child m1 hs1 p2 r1
                    (Or.inl (lookupD_insert_self p (DirEntry.dir u2) s)),
                  hcross]
                cases hv : insertParts m1 hs1 (p2 :: r1) u2 with
                | none => rfl
                | some w =>
                  rw [Option.map_some', Option.map_some']
                  exact congrArg some
                    ((insertSortedD_collapse p (DirEntry.dir w)
                        (DirEntry.dir u1) s).trans
                      (insertSortedD_collapse p (DirEntry.dir w)
                        (DirEntry.dir u2) s).symm)
          · have hqp : q ≠ p := fun h => hpq h.symm
            suffices hgen : ∀ x1 : DirList,
                (lookupD p s = some (DirEntry.dir x1) ∨
                  (lookupD p s = none ∧ x1 = DirList.nil)) →
                (insertParts m1 hs1 (p :: p2 :: r1) s).bind
                    (insertParts m2 hs2 (q :: q2 :: r2)) =
                  (insertParts m2 hs2 (q :: q2 :: r2) s).bind
                    (insertParts m1 hs1 (p :: p2 :: r1)) by
              cases hlp : lookupD p s with
              | none => exact hgen DirList.nil (Or.inr ⟨hlp, rfl⟩)
              | some e =>
                cases e with
                | dir sub => exact hgen sub (Or.inl hlp)
                | file mo hs =>
                  rw [insertParts_go_file m1 hs1 p2 r1 hlp, Option.none_bind]
                  cases hlq : lookupD q s with
                  | none =>
                    rw [insertParts_go_child m2 hs2 q2 r2 (Or.inr ⟨hlq, rfl⟩)]
                    cases h2 : insertParts m2 hs2 (q2 :: r2) DirList.nil with
                    | none => rfl
                    | some u2 =>
                      rw [Option.map_some', Option.some_bind,
                        insertParts_go_file m1 hs1 p2 r1
                          ((lookupD_insert_ne q p _ hpq s).trans hlp)]
                  | some e2 =>
                    cases e2 with
                    | file mo2 hs2x =>
                      rw [insertParts_go_file m2 hs2 q2 r2 hlq, Option.none_bind]
                    | dir sub2 =>
                      rw [insertParts_go_child m2 hs2 q2 r2 (Or.inl hlq)]
                      cases h2 : insertParts m2 hs2 (q2 :: r2) sub2 with
                      | none => rfl
                      | some u2 =>
                        rw [Option.map_some', Option.some_bind,
                          insertParts_go_file m1 hs1 p2 r1
                            ((lookupD_insert_ne q p _ hpq s).trans hlp)]
            intro x1 hx1
            rw [insertParts_go_child m1 hs1 p2 r1 hx1]
            suffices hgen2 : ∀ x2 : DirList,
                (lookupD q s = some (DirEntry.dir x2) ∨
                  (lookupD q s = none ∧ x2 = DirList.nil)) →
                ((insertParts m1 hs1 (p2 :: r1) x1).map
                    (fun u => insertSortedD p (DirEntry.dir u) s)).bind
                    (insertParts m2 hs2 (q :: q2 :: r2)) =
                  (insertParts m2 hs2 (q :: q2 :: r2) s).bind
                    (insertParts m1 hs1 (p :: p2 :: r1)) by
              cases hlq : lookupD q s with
              | none => exact hgen2 DirList.nil (Or.inr ⟨hlq, rfl⟩)
              | some e2 =>
                cases e2 with
                | dir sub2 => exact hgen2 sub2 (Or.inl hlq)
                | file mo2 hs2x =>
                  rw [insertParts_go_file m2 hs2 q2 r2 hlq, Option.none_bind]
                  cases h1 : insertParts m1 hs1 (p2 :: r1) x1 with
                  | none => rfl
                  | some u1 =>
                    rw [Option.map_some', Option.some_bind,
                      insertParts_go_file m2 hs2 q2 r2
                        ((lookupD_insert_ne p q _ hqp s).trans hlq)]
            intro x2 hx2
            rw [insertParts_go_child m2 hs2 q2 r2 hx2]
            have hx1q : ∀ u2 : DirEntry,
                lookupD p (insertSortedD q u2 s) = some (DirEntry.dir x1) ∨
                  (lookupD p (insertSortedD q u2 s) = none ∧ x1 = DirList.nil) := by
              intro u2
              rcases hx1 with hl | ⟨hl, he⟩
              · exact Or.inl ((lookupD_insert_ne q p _ hpq s).trans hl)
              · exact Or.inr ⟨(lookupD_insert_ne q p _ hpq s).trans hl, he⟩
            have hx2p : ∀ u1 : DirEntry,
                lookupD q (insertSortedD p u1 s) = some (DirEntry.dir x2) ∨
                  (lookupD q (insertSortedD p u1 s) = none ∧ x2 = DirList.nil) := by
              intro u1
              rcases hx2 with hl | ⟨hl, he⟩
              · exact Or.inl ((lookupD_insert_ne p q _ hqp s).trans hl)
              · exact Or.inr ⟨(lookupD_insert_ne p q _ hqp s).trans hl, he⟩
            cases h1 : insertParts m1 hs1 (p2 :: r1) x1 with
            | none =>
              cases h2 : insertParts m2 hs2 (q2 :: r2) x2 with
              | none => rfl
              | some u2 =>
                rw [Option.map_none', Option.none_bind, Option.map_some',
                  Option.some_bind,
                  insertParts_go_child m1 hs1 p2 r1
                    (hx1q (DirEntry.dir u2)),
                  h1, Option.map_none']
            | some u1 =>
              rw [Option.map_some', Option.some_bind,
                insertParts_go_child m2 hs2 q2 r2 (hx2p (DirEntry.dir u1))]
              cases h2 : insertParts m2 hs2 (q2 :: r2) x2 with
              | none => rw [Option.map_none', Option.map_none', Option.none_bind]
              | some u2 =>
                rw [Option.map_some', Option.map_some', Option.some_bind,
                  insertParts_go_child m1 hs1 p2 r1
                    (hx1q (DirEntry.dir u2)),
                  h1, Option.map_some']
                exact congrArg some
                  (insertSortedD_comm q p (DirEntry.dir u2) (DirEntry.dir u1)
                    hqp s)

/-- Folding entry insertion equals folding over the entries' (path, mode,
hash) triples. -/
theorem buildFold_eq_tripFold (l : List Entry) :
    l.foldl (fun acc e => acc.bind
        (insertParts (octalBytes e.Mode) e.HashString (splitPath e.Path)))
      (some DirList.nil) =
    (l.map (fun e => (e.Path, e.Mode, e.Hash))).foldl
      (fun acc t => acc.bind
        (insertParts (octalBytes t.2.1) (bytesToHex t.2.2) (splitPath t.1)))
      (some DirList.nil) := by
  rw [List.foldl_map]
  rfl

/-- C2 (amended): when the index entries' paths are pairwise non-nested (no
path equals or is a directory ancestor of another — segment-wise, neither
path's segment list is a prefix of the other's), `BuildTreeRecursive`
depends only on the set of (path, mode, id) triples: any two entry lists
whose triples are permutations of one another build the identical root
tree result. Without the non-nesting hypothesis this fails (see the
counterexample). -/
theorem C2_build_tree_deterministic (l1 l2 : List Entry)
    (hperm : (l1.map (fun e => (e.Path, e.Mode, e.Hash))).Perm
      (l2.map (fun e => (e.Path, e.Mode, e.Hash))))
    (hpw : l1.Pairwise (fun a b =>
      ¬ splitPath a.Path <+: splitPath b.Path ∧
      ¬ splitPath b.Path <+: splitPath a.Path)) :
    BuildTreeRecursive ⟨l1⟩ = BuildTreeRecursive ⟨l2⟩ := by
  have comm : ∀ x ∈ l1.map (fun e => (e.Path, e.Mode, e.Hash)),
      ∀ y ∈ l1.map (fun e => (e.Path, e.Mode, e.Hash)),
      ∀ z : Option DirList,
        (z.bind (insertParts (octalBytes x.2.1) (bytesToHex x.2.2)
          (splitPath x.1))).bind
          (insertParts (octalBytes y.2.1) (bytesToHex y.2.2) (splitPath y.1)) =
        (z.bind (insertParts (octalBytes y.2.1) (bytesToHex y.2.2)
          (splitPath y.1))).bind
          (insertParts (octalBytes x.2.1) (bytesToHex x.2.2) (splitPath x.1)) := by
    intro x hx y hy z
    by_cases hxy : x = y
    · subst hxy
      rfl
    · have hpw2 : (l1.map (fun e => (e.Path, e.Mode, e.Hash))).Pairwise
          (fun t1 t2 => ¬ splitPath t1.1 <+: splitPath t2.1 ∧
            ¬ splitPath t2.1 <+: splitPath t1.1) :=
        hpw.map (fun (e : Entry) => (e.Path, e.Mode, e.Hash))
          (fun a b hab => hab)
      have hR := hpw2.forall (fun a b hab => ⟨hab.2, hab.1⟩) hx hy hxy
      cases z with
      | none => rfl
      | some s =>
        simp only [Option.some_bind]
        exact insertParts_comm _ _ _ _ _ _ hR.1 hR.2 s
  simp only [BuildTreeRecursive]
  rw [buildFold_eq_tripFold l1, buildFold_eq_tripFold l2,
    List.Perm.foldl_eq' hperm comm (some DirList.nil)]

set_option maxRecDepth 100000 in
/-- C2 counterexample: the entry lists `[a, a/b]` and `[a/b, a]` (a file at
`a` and a file at `a/b`, identical modes and ids, so identical
(path, mode, id) triple sets) build different results: in the first order
the walk to `a/b` descends into the file node `a` and the Go code panics
(assignment into a nil map), modeled as `none`, while in the second order
the file insert at `a` silently replaces the directory node and a root id
is produced. -/
theorem C2_counterexample :
    (([⟨0, 0, 0, 0, 0, 0, 33188, 0, 0, 0, List.replicate 20 17, 0, [97]⟩,
       ⟨0, 0, 0, 0, 0, 0, 33188, 0, 0, 0, List.replicate 20 34, 0,
         [97, 47, 98]⟩] : List Entry).map
      (fun e => (e.Path, e.Mode, e.Hash))).Perm
      (([⟨0, 0, 0, 0, 0, 0, 33188, 0, 0, 0, List.replicate 20 34, 0,
          [97, 47, 98]⟩,
         ⟨0, 0, 0, 0, 0, 0, 33188, 0, 0, 0, List.replicate 20 17, 0,
           [97]⟩] : List Entry).map
        (fun e => (e.Path, e.Mode, e.Hash))) ∧
    BuildTreeRecursive ⟨[⟨0, 0, 0, 0, 0, 0, 33188, 0, 0, 0,
      List.replicate 20 17, 0, [97]⟩,
      ⟨0, 0, 0, 0, 0, 0, 33188, 0, 0, 0, List.replicate 20 34, 0,
        [97, 47, 98]⟩]⟩ = none ∧
    BuildTreeRecursive ⟨[⟨0, 0, 0, 0, 0, 0, 33188, 0, 0, 0,
      List.replicate 20 34, 0, [97, 47, 98]⟩,
      ⟨0, 0, 0, 0, 0, 0, 33188, 0, 0, 0, List.replicate 20 17, 0,
        [97]⟩]⟩ ≠ none := by
  decide

/-- Concrete instance of C2: building from `[(a.txt, H1), (b.txt, H2)]` and
from `[(b.txt, H2), (a.txt, H1)]` yields the identical root id. -/
theorem C2_build_tree_deterministic_witness :
    BuildTreeRecursive ⟨[⟨0, 0, 0, 0, 0, 0, 33188, 0, 0, 0,
        List.replicate 20 17, 0, [97, 46, 116, 120, 116]⟩,
      ⟨0, 0, 0, 0, 0, 0, 33188, 0, 0, 0, List.replicate 20 34, 0,
        [98, 46, 116, 120, 116]⟩]⟩ =
    BuildTreeRecursive ⟨[⟨0, 0, 0, 0, 0, 0, 33188, 0, 0, 0,
        List.replicate 20 34, 0, [98, 46, 116, 120, 116]⟩,
      ⟨0, 0, 0, 0, 0, 0, 33188, 0, 0, 0, List.replicate 20 17, 0,
        [97, 46, 116, 120, 116]⟩]⟩ :=
  C2_build_tree_deterministic _ _ (by decide) (by decide)

end GoGit

